import Mathlib

/-!
Shallow embedding of the commit-monitoring bot's synchronization and
deduplication pipeline (the `POST /api/sync` handler in `src/server/routes.ts`,
the in-memory `MemStorage` store, the `ConfigManager` global checkpoint and the
`GitHubService` conversion glue), together with theorems settling the frozen
claims about it.

Modelling conventions:
* JavaScript `Map<number, T>` becomes an association list `List (Nat × T)`
  whose update keeps the position of an existing key and appends fresh keys
  (insertion order), matching `Map.set` / iteration order.
* Timestamps are integers (milliseconds); `new Date()` within one sync
  invocation is a single `now` parameter.
* Nullable / falsy-coerced fields (`x || null`, `x || 0`, `x ?? false`) are
  embedded with `Option` and the exact falsiness test of the source (`0` and
  `""` are falsy).
* The external GitHub client is an oracle (`Fetcher`) of pure functions
  returning `Except`; a thrown error is the `.error` case.
* The config file is a record; a ghost counter `saveCount` counts successful
  config writes so that "the checkpoint is advanced exactly once" is statable.
-/

namespace CommitBot

/-- Association-list read, mirroring JavaScript `Map.get`. -/
def mapGet {α : Type} (l : List (Nat × α)) (k : Nat) : Option α :=
  (l.find? (fun p => p.1 == k)).map Prod.snd

/-- Association-list write, mirroring JavaScript `Map.set`: an existing key is
overwritten in place, a fresh key is appended (insertion order). -/
def mapSet {α : Type} (l : List (Nat × α)) (k : Nat) (v : α) : List (Nat × α) :=
  if l.any (fun p => p.1 == k) then
    l.map (fun p => if p.1 == k then (k, v) else p)
  else
    l ++ [(k, v)]

/-- Diff statistics of the external commit payload (`GitHubCommit.stats`). -/
structure Stats where
  additions : Nat
  deletions : Nat
  total : Nat
deriving Repr, DecidableEq

/-- External commit payload, as returned by the history fetcher
(`GitHubCommit` in `src/server/lib/github.ts`): `stats` and `files` are
optional, `files` is kept as the list of file names (only its length is
consumed). The author date is already parsed to an integer timestamp. -/
structure GitHubCommit where
  sha : String
  message : String
  authorName : String
  authorEmail : String
  authorDate : Int
  htmlUrl : String
  stats : Option Stats
  files : Option (List String)
deriving Repr, DecidableEq

/-- Shape handed to `createCommit` (`InsertCommit` of the shared schema):
optional fields are `Option`. -/
structure InsertCommit where
  repositoryId : Option Nat
  sha : String
  message : String
  author : String
  authorEmail : Option String
  date : Int
  additions : Option Nat
  deletions : Option Nat
  filesChanged : Option Nat
  url : Option String
  processed : Option Bool
deriving Repr, DecidableEq

/-- Stored commit row (`Commit` of the shared schema). -/
structure Commit where
  id : Nat
  repositoryId : Option Nat
  sha : String
  message : String
  author : String
  authorEmail : Option String
  date : Int
  additions : Option Nat
  deletions : Option Nat
  filesChanged : Option Nat
  url : Option String
  processed : Bool
deriving Repr, DecidableEq

/-- Stored repository row (`Repository` of the shared schema). -/
structure Repository where
  id : Nat
  owner : String
  name : String
  description : Option String
  isActive : Bool
  lastSyncTime : Option Int
  createdAt : Int
deriving Repr, DecidableEq

/-- The in-memory store (`MemStorage` in `src/server/routes.ts`), restricted to
the collections the sync pipeline touches. -/
structure MemStorage where
  repositories : List (Nat × Repository)
  commits : List (Nat × Commit)
  currentRepoId : Nat
  currentCommitId : Nat
deriving Repr, DecidableEq

/-- `MemStorage.getActiveRepositories`. -/
def getActiveRepositories (s : MemStorage) : List Repository :=
  (s.repositories.map Prod.snd).filter (fun r => r.isActive)

/-- `MemStorage.getCommitsBySha`: linear scan of all stored commits in
insertion order, with no repository filter. -/
def getCommitsBySha (s : MemStorage) (sha : String) : Option Commit :=
  (s.commits.map Prod.snd).find? (fun c => c.sha == sha)

/-- JavaScript `x || null` on an optional number: `0` is falsy. -/
def natOrNull (x : Option Nat) : Option Nat :=
  match x with
  | some v => if v == 0 then none else some v
  | none => none

/-- JavaScript `x || null` on an optional string: `""` is falsy. -/
def strOrNull (x : Option String) : Option String :=
  match x with
  | some v => if v == "" then none else some v
  | none => none

/-- `MemStorage.createCommit`: assigns the next surrogate id and defaults the
nullable fields exactly as the source's `|| null` / `?? false` coercions do. -/
def createCommit (s : MemStorage) (ic : InsertCommit) : Commit × MemStorage :=
  let id := s.currentCommitId
  let commit : Commit :=
    { id := id
      repositoryId := natOrNull ic.repositoryId
      sha := ic.sha
      message := ic.message
      author := ic.author
      authorEmail := strOrNull ic.authorEmail
      date := ic.date
      additions := natOrNull ic.additions
      deletions := natOrNull ic.deletions
      filesChanged := natOrNull ic.filesChanged
      url := strOrNull ic.url
      processed := ic.processed.getD false }
  (commit, { s with commits := mapSet s.commits id commit, currentCommitId := id + 1 })

/-- `MemStorage.updateRepository` applied with the partial update
`\x7b lastSyncTime \x7d`, the only use the sync pipeline makes of it: merge into
the existing row, or do nothing when the id is absent. -/
def updateRepositoryLastSync (s : MemStorage) (id : Nat) (t : Int) : MemStorage :=
  match mapGet s.repositories id with
  | none => s
  | some existing =>
      { s with repositories :=
          mapSet s.repositories id { existing with lastSyncTime := some t } }

/-- `MemStorage.markCommitsAsProcessed`: for each id in order, flip `processed`
on the stored commit when present, silently skip otherwise. -/
def markCommitsAsProcessed (s : MemStorage) (commitIds : List Nat) : MemStorage :=
  commitIds.foldl
    (fun st id =>
      match mapGet st.commits id with
      | some commit => { st with commits := mapSet st.commits id { commit with processed := true } }
      | none => st)
    s

/-- `GitHubService.convertToInsertCommit`: the `stats?.additions || 0`,
`files?.length || 0` defaulting of the source. -/
def convertToInsertCommit (g : GitHubCommit) (repositoryId : Nat) : InsertCommit :=
  { repositoryId := some repositoryId
    sha := g.sha
    message := g.message
    author := g.authorName
    authorEmail := some g.authorEmail
    date := g.authorDate
    additions := some ((g.stats.map Stats.additions).getD 0)
    deletions := some ((g.stats.map Stats.deletions).getD 0)
    filesChanged := some ((g.files.map List.length).getD 0)
    url := some g.htmlUrl
    processed := some false }

/-- The external history fetcher (`GitHubService`), as an oracle of pure
functions; a thrown error is the `.error` case. Arguments: owner, name and the
"since" timestamp (resp. the commit hash for the detail call). -/
structure Fetcher where
  getCommitsSince : String → String → Int → Except String (List GitHubCommit)
  getCommitDetails : String → String → String → Except String GitHubCommit

/-- Environment of one sync invocation: whether the GitHub token is present
(`getGitHubService` throws when it is not), the fetcher oracle, the current
time, and whether writing the config file succeeds (`ConfigManager.saveConfig`
throws when it does not). -/
structure SyncEnv where
  tokenPresent : Bool
  fetcher : Fetcher
  now : Int
  configSaveOk : Bool

/-- The persisted config file, restricted to the global checkpoint; `saveCount`
is a ghost counter of successful config writes. -/
structure BotConfigData where
  lastSyncTime : Option Int
  saveCount : Nat
deriving Repr, DecidableEq

/-- Aggregate result of a non-hard-failing sync invocation. -/
structure SyncResult where
  newCommits : Nat
  repositoriesProcessed : Nat
  errors : List String
deriving Repr, DecidableEq

/-- The 7-day default lookback window, in milliseconds. -/
def sevenDaysMs : Int := 7 * 24 * 60 * 60 * 1000

/-- The effective "since" timestamp of a repository:
`repo.lastSyncTime || new Date(Date.now() - 7 * 24 * 60 * 60 * 1000)`. -/
def sinceFor (repo : Repository) (now : Int) : Int :=
  match repo.lastSyncTime with
  | some t => t
  | none => now - sevenDaysMs

/-- The inner candidate loop of `POST /api/sync`: for each fetched commit in
order, skip when a stored commit with the same sha exists, otherwise fetch the
detail, convert and insert. A thrown detail-fetch error aborts the loop but
keeps the commits already inserted and their count. Returns the store, the
number of inserted commits, and the error if one was thrown. -/
def processCandidates (env : SyncEnv) (repo : Repository) :
    List GitHubCommit → MemStorage → MemStorage × Nat × Option String
  | [], s => (s, 0, none)
  | g :: rest, s =>
    match getCommitsBySha s g.sha with
    | some _ => processCandidates env repo rest s
    | none =>
      match env.fetcher.getCommitDetails repo.owner repo.name g.sha with
      | .error e => (s, 0, some e)
      | .ok detailed =>
        let s1 := (createCommit s (convertToInsertCommit detailed repo.id)).2
        let r := processCandidates env repo rest s1
        (r.1, r.2.1 + 1, r.2.2)

/-- The error message pushed for a failing repository:
`` `${repo.owner}/${repo.name}: ${error}` ``. -/
def repoErrorMsg (repo : Repository) (e : String) : String :=
  repo.owner ++ "/" ++ repo.name ++ ": " ++ e

/-- One iteration of the per-repository loop of `POST /api/sync` (the body of
the `try`/`catch`): fetch candidates since the effective checkpoint, process
them, and on full success update the repository's `lastSyncTime`; a throw at
any point is caught and keyed by the repository. -/
def syncRepo (env : SyncEnv) (s : MemStorage) (repo : Repository) :
    MemStorage × Nat × Option String :=
  match env.fetcher.getCommitsSince repo.owner repo.name (sinceFor repo env.now) with
  | .error e => (s, 0, some (repoErrorMsg repo e))
  | .ok githubCommits =>
    match processCandidates env repo githubCommits s with
    | (s1, n, some e) => (s1, n, some (repoErrorMsg repo e))
    | (s1, n, none) => (updateRepositoryLastSync s1 repo.id env.now, n, none)

/-- The per-repository loop: accumulates inserted counts and error messages in
order, each repository isolated from the others. -/
def syncLoop (env : SyncEnv) : List Repository → MemStorage → MemStorage × Nat × List String
  | [], s => (s, 0, [])
  | repo :: rest, s =>
    let r1 := syncRepo env s repo
    let r2 := syncLoop env rest r1.1
    (r2.1, r1.2.1 + r2.2.1, r1.2.2.toList ++ r2.2.2)

/-- The whole `POST /api/sync` handler: construct the GitHub client (hard
error when the token is missing), load the active repositories (which cannot
fail in `MemStorage`), run the loop, then write the global checkpoint (hard
error when the config save fails, with the loop's store mutations kept). -/
def sync (env : SyncEnv) (s : MemStorage) (cfg : BotConfigData) :
    MemStorage × BotConfigData × Except String SyncResult :=
  if env.tokenPresent then
    let repos := getActiveRepositories s
    let r := syncLoop env repos s
    if env.configSaveOk then
      (r.1, { lastSyncTime := some env.now, saveCount := cfg.saveCount + 1 },
        Except.ok { newCommits := r.2.1, repositoriesProcessed := repos.length, errors := r.2.2 })
    else
      (r.1, cfg, Except.error "Failed to save config")
  else
    (s, cfg, Except.error "GitHub token not found in environment variables")

/-- A sequence of sync invocations threading the store and config. -/
def syncMany (envs : List SyncEnv) (s : MemStorage) (cfg : BotConfigData) :
    MemStorage × BotConfigData :=
  match envs with
  | [] => (s, cfg)
  | env :: rest =>
    let r := sync env s cfg
    syncMany rest r.1 r.2.1

/-- Whether the sync call surfaced as a hard (non-2xx) error. -/
def isHardError (out : Except String SyncResult) : Bool :=
  match out with
  | .error _ => true
  | .ok _ => false

/-- Stored commit values, in insertion order. -/
def commitValues (s : MemStorage) : List Commit := s.commits.map Prod.snd

/-- Stored content hashes, in insertion order. -/
def commitShas (s : MemStorage) : List String := (commitValues s).map Commit.sha

/-- Whether some stored commit (of any repository) has the given hash. -/
def shaStored (s : MemStorage) (sha : String) : Bool :=
  (commitValues s).any (fun c => c.sha == sha)

/-- Global hash uniqueness: the stored hashes are pairwise distinct. -/
def shaUnique (s : MemStorage) : Prop := (commitShas s).Nodup

/-- Well-formedness of the commit map: every key is below the id counter, so
the next insert gets a fresh key (true of every store the code can build). -/
def commitIdsFresh (s : MemStorage) : Prop :=
  ∀ p ∈ s.commits, p.1 < s.currentCommitId

/-- Well-formedness of the repository map: keys are pairwise distinct and each
row is stored under its own id (true of every store the code can build). -/
def ReposWF (s : MemStorage) : Prop :=
  (s.repositories.map Prod.fst).Nodup ∧ ∀ p ∈ s.repositories, p.1 = p.2.id

/-- The history fetcher's detail contract: the detail payload for a hash
carries that hash. -/
def DetailSha (f : Fetcher) : Prop :=
  ∀ o n sha g, f.getCommitDetails o n sha = Except.ok g → g.sha = sha

/-- "The fetcher returns the same commits as the first time": its list result
does not depend on the "since" argument. -/
def FetchConst (f : Fetcher) : Prop :=
  ∀ o n t t', f.getCommitsSince o n t = f.getCommitsSince o n t'

/-- Pointwise order on optional timestamps: `none` is below everything,
`some` is never below `none`. -/
def optTimeLe (a b : Option Int) : Bool :=
  match a, b with
  | none, _ => true
  | some _, none => false
  | some t, some t' => t ≤ t'

/-- How one repository-table entry may change during a sync invocation with
current time `now`: it keeps its key and is either untouched or — when it was
active — its `lastSyncTime` is overwritten with `now`. -/
def RepoStep (now : Int) (p p' : Nat × Repository) : Prop :=
  p'.1 = p.1 ∧
    (p' = p ∨ (p.2.isActive = true ∧ p'.2 = { p.2 with lastSyncTime := some now }))

/-- A minimal external commit payload with the given hash. -/
def gMk (sha : String) : GitHubCommit :=
  { sha := sha, message := "m", authorName := "an", authorEmail := "ae",
    authorDate := 0, htmlUrl := "u", stats := none, files := none }

/-- A minimal active repository row. -/
def repoMk (id : Nat) (owner name : String) (lst : Option Int) : Repository :=
  { id := id, owner := owner, name := name, description := none, isActive := true,
    lastSyncTime := lst, createdAt := 0 }

/-- A minimal stored commit row. -/
def cMk (id : Nat) (sha : String) : Commit :=
  { id := id, repositoryId := some 1, sha := sha, message := "m", author := "a",
    authorEmail := none, date := 0, additions := none, deletions := none,
    filesChanged := none, url := none, processed := false }

/-- The empty store. -/
def st0 : MemStorage :=
  { repositories := [], commits := [], currentRepoId := 1, currentCommitId := 1 }

/-- The empty config file. -/
def cfg0 : BotConfigData := { lastSyncTime := none, saveCount := 0 }

/-- A fetcher for two repositories that share one upstream commit hash, where
the dedicated detail fetch of the first repository for that hash fails; list
results ignore the "since" argument. -/
def fetchC : Fetcher :=
  { getCommitsSince := fun o _ _ =>
      if o == "a" then Except.ok [gMk "x", gMk "y"] else Except.ok [gMk "x"]
    getCommitDetails := fun o _ sha =>
      if o == "a" && sha == "x" then Except.error "boom" else Except.ok (gMk sha) }

/-- Two active repositories with no checkpoints for `fetchC`. -/
def stC : MemStorage :=
  { repositories := [(1, repoMk 1 "a" "ra" none), (2, repoMk 2 "b" "rb" none)]
    commits := [], currentRepoId := 3, currentCommitId := 1 }

def envC : SyncEnv :=
  { tokenPresent := true, fetcher := fetchC, now := 1000000000, configSaveOk := true }

/-- A fetcher whose detail call always throws. -/
def fetch3 : Fetcher :=
  { getCommitsSince := fun _ _ _ => Except.ok [gMk "x"]
    getCommitDetails := fun _ _ _ => Except.error "boom" }

/-- One active repository with checkpoint 5 for `fetch3`. -/
def st3 : MemStorage :=
  { repositories := [(1, repoMk 1 "a" "ra" (some 5))], commits := [],
    currentRepoId := 2, currentCommitId := 1 }

def env3 : SyncEnv :=
  { tokenPresent := true, fetcher := fetch3, now := 1000, configSaveOk := true }

/-- A fetcher under which both repositories list the same upstream commit. -/
def fetchT : Fetcher :=
  { getCommitsSince := fun _ _ _ => Except.ok [gMk "s1"]
    getCommitDetails := fun _ _ sha => Except.ok (gMk sha) }

/-- Two active repositories that can both reach commit `s1`. -/
def stT : MemStorage :=
  { repositories := [(1, repoMk 1 "a" "ra" none), (2, repoMk 2 "b" "rb" none)]
    commits := [], currentRepoId := 3, currentCommitId := 1 }

def envT : SyncEnv :=
  { tokenPresent := true, fetcher := fetchT, now := 604800000, configSaveOk := true }

/-- A well-behaved fetcher: two commits, details echo the requested hash. -/
def fetchW : Fetcher :=
  { getCommitsSince := fun _ _ _ => Except.ok [gMk "w1", gMk "w2"]
    getCommitDetails := fun _ _ sha => Except.ok (gMk sha) }

/-- A fetcher agreeing with `fetchW` except on a foreign repository's list. -/
def fetchW2 : Fetcher :=
  { getCommitsSince := fun o n t =>
      if o == "zzz" then Except.error "other" else fetchW.getCommitsSince o n t
    getCommitDetails := fetchW.getCommitDetails }

/-- One active repository with no checkpoint for `fetchW`. -/
def stW : MemStorage :=
  { repositories := [(1, repoMk 1 "o" "r" none)], commits := [],
    currentRepoId := 2, currentCommitId := 1 }

def envW : SyncEnv :=
  { tokenPresent := true, fetcher := fetchW, now := 604800000, configSaveOk := true }

/-- Like `envW` but the config-file write fails. -/
def envHard : SyncEnv :=
  { tokenPresent := true, fetcher := fetchW, now := 7, configSaveOk := false }

/-- Three repositories where exactly the second one's history fetch throws. -/
def fetch2 : Fetcher :=
  { getCommitsSince := fun o _ _ =>
      if o == "a2" then Except.error "down"
      else if o == "a1" then Except.ok [gMk "c1"] else Except.ok [gMk "c3"]
    getCommitDetails := fun _ _ sha => Except.ok (gMk sha) }

def st2 : MemStorage :=
  { repositories := [(1, repoMk 1 "a1" "r1" none), (2, repoMk 2 "a2" "r2" none),
      (3, repoMk 3 "a3" "r3" none)]
    commits := [], currentRepoId := 4, currentCommitId := 1 }

def env2 : SyncEnv :=
  { tokenPresent := true, fetcher := fetch2, now := 604800000, configSaveOk := true }

/-- A store with three commits, for the bulk-flip scenario. -/
def st8 : MemStorage :=
  { repositories := [], commits := [(1, cMk 1 "s1"), (2, cMk 2 "s2"), (4, cMk 4 "s4")],
    currentRepoId := 1, currentCommitId := 5 }

/-- A fetcher whose detail call throws exactly for hash `x`, which every
repository lists second — so a pass inserts the first commit and then throws
mid-loop in the detail fetch. -/
def fetchD : Fetcher :=
  { getCommitsSince := fun _ _ _ => Except.ok [gMk "y", gMk "x"]
    getCommitDetails := fun _ _ sha =>
      if sha == "x" then Except.error "boom" else Except.ok (gMk sha) }

/-- Two active repositories with no checkpoints for `fetchD`. -/
def stD : MemStorage :=
  { repositories := [(1, repoMk 1 "a" "ra" none), (2, repoMk 2 "b" "rb" none)]
    commits := [], currentRepoId := 3, currentCommitId := 1 }

def envD : SyncEnv :=
  { tokenPresent := true, fetcher := fetchD, now := 604800000, configSaveOk := true }

/-! ### Basic lemmas about the map embedding and the store primitives -/

theorem find?_none_iff_any_false {α : Type} (p : α → Bool) (l : List α) :
    l.find? p = none ↔ l.any p = false := by
  induction l with
  | nil => simp
  | cons a l ih => cases hp : p a <;> simp [List.find?_cons, hp, ih]

theorem find?_map_update {α : Type} (l : List (Nat × α)) (k : Nat) (v : α)
    (h : l.any (fun p => p.1 == k) = true) :
    (l.map (fun p => if p.1 == k then (k, v) else p)).find? (fun q => q.1 == k)
      = some (k, v) := by
  induction l with
  | nil => simp at h
  | cons a l ih =>
    by_cases ha : a.1 = k
    · simp [List.find?_cons, ha]
    · have hl : l.any (fun p => p.1 == k) = true := by
        simpa [List.any_cons, ha] using h
      simpa [List.find?_cons, ha] using ih hl

theorem mapGet_mapSet_self {α : Type} (l : List (Nat × α)) (k : Nat) (v : α) :
    mapGet (mapSet l k v) k = some v := by
  cases hl : l.any (fun p => p.1 == k) with
  | false =>
    have hf : l.find? (fun p => p.1 == k) = none := (find?_none_iff_any_false _ _).mpr hl
    simp [mapGet, mapSet, hl, List.find?_append, hf, List.find?_cons]
  | true =>
    unfold mapGet mapSet
    rw [if_pos hl, find?_map_update l k v hl]
    rfl

theorem find?_key_of_nodup {α : Type} {l : List (Nat × α)}
    (hnd : (l.map Prod.fst).Nodup) {p : Nat × α} (hp : p ∈ l) {k : Nat} (hk : p.1 = k) :
    l.find? (fun q => q.1 == k) = some p := by
  induction l with
  | nil => simp at hp
  | cons a l ih =>
    simp only [List.map_cons, List.nodup_cons] at hnd
    rcases List.mem_cons.mp hp with rfl | hmem
    · simp [List.find?_cons, hk]
    · cases ha : a.1 == k with
      | true =>
        exfalso
        have ha' : a.1 = k := by simpa using ha
        exact hnd.1 (List.mem_map.mpr ⟨p, hmem, by rw [hk, ha']⟩)
      | false => simpa [List.find?_cons, ha] using ih hnd.2 hmem

theorem createCommit_sha (s : MemStorage) (ic : InsertCommit) :
    (createCommit s ic).1.sha = ic.sha := rfl

theorem createCommit_repositories (s : MemStorage) (ic : InsertCommit) :
    ((createCommit s ic).2).repositories = s.repositories := rfl

theorem createCommit_commits (s : MemStorage) (ic : InsertCommit) (h : commitIdsFresh s) :
    ((createCommit s ic).2).commits
      = s.commits ++ [(s.currentCommitId, (createCommit s ic).1)] := by
  have hany : s.commits.any (fun p => p.1 == s.currentCommitId) = false := by
    rw [List.any_eq_false]
    intro p hp
    simp only [beq_iff_eq]
    exact Nat.ne_of_lt (h p hp)
  simp [createCommit, mapSet, hany]

theorem commitIdsFresh_createCommit (s : MemStorage) (ic : InsertCommit)
    (h : commitIdsFresh s) : commitIdsFresh ((createCommit s ic).2) := by
  intro p hp
  rw [createCommit_commits s ic h] at hp
  rcases List.mem_append.mp hp with hmem | hmem
  · exact Nat.lt_succ_of_lt (h p hmem)
  · simp only [List.mem_singleton] at hmem
    subst hmem
    exact Nat.lt_succ_self _

theorem commitShas_createCommit (s : MemStorage) (ic : InsertCommit)
    (h : commitIdsFresh s) :
    commitShas ((createCommit s ic).2) = commitShas s ++ [ic.sha] := by
  simp [commitShas, commitValues, createCommit_commits s ic h, createCommit_sha]

theorem shaStored_iff_mem (s : MemStorage) (x : String) :
    shaStored s x = true ↔ x ∈ commitShas s := by
  constructor
  · intro hx
    obtain ⟨c, hc, he⟩ := List.any_eq_true.mp hx
    exact List.mem_map.mpr ⟨c, hc, by simpa using he⟩
  · intro hx
    obtain ⟨c, hc, he⟩ := List.mem_map.mp hx
    exact List.any_eq_true.mpr ⟨c, hc, by simpa using he⟩

theorem shaStored_createCommit (s : MemStorage) (ic : InsertCommit)
    (h : commitIdsFresh s) (x : String) :
    shaStored ((createCommit s ic).2) x = (shaStored s x || (ic.sha == x)) := by
  simp only [shaStored, commitValues, createCommit_commits s ic h, List.map_append,
    List.any_append, List.map_cons, List.map_nil, List.any_cons, List.any_nil,
    createCommit_sha, Bool.or_false]

theorem getCommitsBySha_none_iff (s : MemStorage) (x : String) :
    getCommitsBySha s x = none ↔ shaStored s x = false := by
  exact find?_none_iff_any_false _ _

theorem shaStored_congr {s s' : MemStorage} (h : s.commits = s'.commits) (x : String) :
    shaStored s x = shaStored s' x := by
  simp [shaStored, commitValues, h]

theorem updateRepositoryLastSync_commits (s : MemStorage) (id : Nat) (t : Int) :
    (updateRepositoryLastSync s id t).commits = s.commits := by
  unfold updateRepositoryLastSync
  cases mapGet s.repositories id <;> rfl

theorem updateRepositoryLastSync_currentCommitId (s : MemStorage) (id : Nat) (t : Int) :
    (updateRepositoryLastSync s id t).currentCommitId = s.currentCommitId := by
  unfold updateRepositoryLastSync
  cases mapGet s.repositories id <;> rfl

theorem commitIdsFresh_congr {s s' : MemStorage} (hc : s.commits = s'.commits)
    (hi : s.currentCommitId = s'.currentCommitId) (h : commitIdsFresh s) :
    commitIdsFresh s' := by
  intro p hp
  rw [← hc] at hp
  rw [← hi]
  exact h p hp

theorem shaStored_of_getCommitsBySha_some {s : MemStorage} {x : String} {c : Commit}
    (hc : getCommitsBySha s x = some c) : shaStored s x = true := by
  cases hs : shaStored s x with
  | true => rfl
  | false => rw [(getCommitsBySha_none_iff s x).mpr hs] at hc; cases hc

theorem nodup_append_single {α : Type} {l : List α} {a : α}
    (h : l.Nodup) (ha : a ∉ l) : (l ++ [a]).Nodup := by
  exact (List.perm_append_singleton a l).nodup_iff.mpr (List.nodup_cons.mpr ⟨ha, h⟩)

/-! ### Lemmas about the candidate loop -/

theorem processCandidates_repositories (env : SyncEnv) (repo : Repository)
    (cs : List GitHubCommit) : ∀ s : MemStorage,
    (processCandidates env repo cs s).1.repositories = s.repositories := by
  induction cs with
  | nil => intro s; rfl
  | cons g rest ih =>
    intro s
    simp only [processCandidates]
    cases hc : getCommitsBySha s g.sha with
    | some c => exact ih s
    | none =>
      cases hd : env.fetcher.getCommitDetails repo.owner repo.name g.sha with
      | error e => rfl
      | ok d => simpa [createCommit_repositories] using ih _

theorem processCandidates_fresh (env : SyncEnv) (repo : Repository)
    (cs : List GitHubCommit) : ∀ s : MemStorage, commitIdsFresh s →
    commitIdsFresh (processCandidates env repo cs s).1 := by
  induction cs with
  | nil => intro s h; exact h
  | cons g rest ih =>
    intro s h
    simp only [processCandidates]
    cases hc : getCommitsBySha s g.sha with
    | some c => exact ih s h
    | none =>
      cases hd : env.fetcher.getCommitDetails repo.owner repo.name g.sha with
      | error e => exact h
      | ok d => simpa using ih _ (commitIdsFresh_createCommit s _ h)

theorem processCandidates_shaStored_mono (env : SyncEnv) (repo : Repository)
    (cs : List GitHubCommit) (x : String) : ∀ s : MemStorage, commitIdsFresh s →
    shaStored s x = true → shaStored (processCandidates env repo cs s).1 x = true := by
  induction cs with
  | nil => intro s _ hx; exact hx
  | cons g rest ih =>
    intro s h hx
    simp only [processCandidates]
    cases hc : getCommitsBySha s g.sha with
    | some c => exact ih s h hx
    | none =>
      cases hd : env.fetcher.getCommitDetails repo.owner repo.name g.sha with
      | error e => exact hx
      | ok d =>
        have hx1 : shaStored ((createCommit s (convertToInsertCommit d repo.id)).2) x = true := by
          rw [shaStored_createCommit s _ h x, hx, Bool.true_or]
        simpa using ih _ (commitIdsFresh_createCommit s _ h) hx1

theorem processCandidates_all_present (env : SyncEnv) (repo : Repository)
    (cs : List GitHubCommit) : ∀ s : MemStorage,
    (∀ g ∈ cs, shaStored s g.sha = true) →
    processCandidates env repo cs s = (s, 0, none) := by
  induction cs with
  | nil => intro s _; rfl
  | cons g rest ih =>
    intro s h
    simp only [processCandidates]
    cases hc : getCommitsBySha s g.sha with
    | some c => exact ih s (fun g' hg' => h g' (List.mem_cons_of_mem g hg'))
    | none =>
      exfalso
      have := (getCommitsBySha_none_iff s g.sha).mp hc
      rw [h g (List.mem_cons_self g rest)] at this
      cases this

theorem processCandidates_noabort (env : SyncEnv) (repo : Repository)
    (cs : List GitHubCommit) : ∀ s : MemStorage,
    (∀ g ∈ cs, ∃ d, env.fetcher.getCommitDetails repo.owner repo.name g.sha = Except.ok d) →
    (processCandidates env repo cs s).2.2 = none := by
  induction cs with
  | nil => intro s _; rfl
  | cons g rest ih =>
    intro s h
    simp only [processCandidates]
    cases hc : getCommitsBySha s g.sha with
    | some c => exact ih s (fun g' hg' => h g' (List.mem_cons_of_mem g hg'))
    | none =>
      obtain ⟨d, hd⟩ := h g (List.mem_cons_self g rest)
      rw [hd]
      simpa using ih _ (fun g' hg' => h g' (List.mem_cons_of_mem g hg'))

theorem processCandidates_cov (env : SyncEnv) (repo : Repository)
    (cs : List GitHubCommit) : ∀ s : MemStorage, commitIdsFresh s →
    (∀ g ∈ cs, ∀ d, env.fetcher.getCommitDetails repo.owner repo.name g.sha = Except.ok d →
      d.sha = g.sha) →
    (processCandidates env repo cs s).2.2 = none →
    ∀ g ∈ cs, shaStored (processCandidates env repo cs s).1 g.sha = true := by
  induction cs with
  | nil => intro s _ _ _ g hg; simp at hg
  | cons g0 rest ih =>
    intro s h hsha hok g hg
    simp only [processCandidates] at hok ⊢
    cases hc : getCommitsBySha s g0.sha with
    | some c =>
      rw [hc] at hok
      rcases List.mem_cons.mp hg with rfl | hmem
      · exact processCandidates_shaStored_mono env repo rest g.sha s h
          (shaStored_of_getCommitsBySha_some hc)
      · exact ih s h (fun g' hg' d hd => hsha g' (List.mem_cons_of_mem g0 hg') d hd) hok g hmem
    | none =>
      rw [hc] at hok
      cases hd : env.fetcher.getCommitDetails repo.owner repo.name g0.sha with
      | error e => rw [hd] at hok; cases hok
      | ok d =>
        rw [hd] at hok
        simp only at hok
        have hfresh1 : commitIdsFresh ((createCommit s (convertToInsertCommit d repo.id)).2) :=
          commitIdsFresh_createCommit s _ h
        rcases List.mem_cons.mp hg with rfl | hmem
        · have hx1 : shaStored ((createCommit s (convertToInsertCommit d repo.id)).2) g.sha
              = true := by
            rw [shaStored_createCommit s _ h g.sha]
            have : (convertToInsertCommit d repo.id).sha = g.sha := hsha g (List.mem_cons_self g rest) d hd
            rw [this]
            simp
          simpa using processCandidates_shaStored_mono env repo rest g.sha _ hfresh1 hx1
        · simpa using ih _ hfresh1
            (fun g' hg' d' hd' => hsha g' (List.mem_cons_of_mem g0 hg') d' hd') (by simpa using hok) g hmem

theorem processCandidates_unique (env : SyncEnv) (repo : Repository)
    (cs : List GitHubCommit) : ∀ s : MemStorage, commitIdsFresh s →
    (∀ g ∈ cs, ∀ d, env.fetcher.getCommitDetails repo.owner repo.name g.sha = Except.ok d →
      d.sha = g.sha) →
    shaUnique s → shaUnique (processCandidates env repo cs s).1 := by
  induction cs with
  | nil => intro s _ _ hu; exact hu
  | cons g rest ih =>
    intro s h hsha hu
    simp only [processCandidates]
    cases hc : getCommitsBySha s g.sha with
    | some c => exact ih s h (fun g' hg' => hsha g' (List.mem_cons_of_mem g hg')) hu
    | none =>
      cases hd : env.fetcher.getCommitDetails repo.owner repo.name g.sha with
      | error e => exact hu
      | ok d =>
        have hnotmem : g.sha ∉ commitShas s := by
          intro hmem
          have := (shaStored_iff_mem s g.sha).mpr hmem
          rw [(getCommitsBySha_none_iff s g.sha).mp hc] at this
          cases this
        have hu1 : shaUnique ((createCommit s (convertToInsertCommit d repo.id)).2) := by
          unfold shaUnique
          rw [commitShas_createCommit s _ h]
          have : (convertToInsertCommit d repo.id).sha = g.sha := hsha g (List.mem_cons_self g rest) d hd
          rw [this]
          exact nodup_append_single hu hnotmem
        simpa using ih _ (commitIdsFresh_createCommit s _ h)
          (fun g' hg' => hsha g' (List.mem_cons_of_mem g hg')) hu1

theorem processCandidates_congr {env env' : SyncEnv} (repo : Repository)
    (h : env'.fetcher.getCommitDetails = env.fetcher.getCommitDetails)
    (cs : List GitHubCommit) : ∀ s : MemStorage,
    processCandidates env' repo cs s = processCandidates env repo cs s := by
  induction cs with
  | nil => intro s; rfl
  | cons g rest ih =>
    intro s
    simp only [processCandidates, h]
    cases hc : getCommitsBySha s g.sha with
    | some c => exact ih s
    | none =>
      cases hd : env.fetcher.getCommitDetails repo.owner repo.name g.sha with
      | error e => rfl
      | ok d => simp [ih]

/-! ### Lemmas about one repository's sync pass -/

theorem shaUnique_congr {s s' : MemStorage} (h : s.commits = s'.commits)
    (hu : shaUnique s) : shaUnique s' := by
  unfold shaUnique commitShas commitValues at *
  rw [← h]
  exact hu

theorem syncRepo_fetchError {env : SyncEnv} {s : MemStorage} {repo : Repository} {m : String}
    (h : env.fetcher.getCommitsSince repo.owner repo.name (sinceFor repo env.now)
      = Except.error m) :
    syncRepo env s repo = (s, 0, some (repoErrorMsg repo m)) := by
  simp [syncRepo, h]

theorem syncRepo_fresh (env : SyncEnv) (s : MemStorage) (repo : Repository)
    (h : commitIdsFresh s) : commitIdsFresh (syncRepo env s repo).1 := by
  unfold syncRepo
  cases hf : env.fetcher.getCommitsSince repo.owner repo.name (sinceFor repo env.now) with
  | error m => exact h
  | ok l =>
    dsimp only
    rcases hP : processCandidates env repo l s with ⟨s1, n, e⟩
    have h1 : commitIdsFresh s1 := by
      have := processCandidates_fresh env repo l s h
      rwa [hP] at this
    cases e with
    | some m => exact h1
    | none =>
      exact commitIdsFresh_congr (updateRepositoryLastSync_commits s1 repo.id env.now).symm
        (updateRepositoryLastSync_currentCommitId s1 repo.id env.now).symm h1

theorem syncRepo_shaStored_mono (env : SyncEnv) (s : MemStorage) (repo : Repository)
    (x : String) (h : commitIdsFresh s) (hx : shaStored s x = true) :
    shaStored (syncRepo env s repo).1 x = true := by
  unfold syncRepo
  cases hf : env.fetcher.getCommitsSince repo.owner repo.name (sinceFor repo env.now) with
  | error m => exact hx
  | ok l =>
    dsimp only
    rcases hP : processCandidates env repo l s with ⟨s1, n, e⟩
    have h1 : shaStored s1 x = true := by
      have := processCandidates_shaStored_mono env repo l x s h hx
      rwa [hP] at this
    cases e with
    | some m => exact h1
    | none =>
      dsimp only
      rw [shaStored_congr (updateRepositoryLastSync_commits s1 repo.id env.now) x]
      exact h1

theorem syncRepo_unique (env : SyncEnv) (s : MemStorage) (repo : Repository)
    (h : commitIdsFresh s) (hD : DetailSha env.fetcher) (hu : shaUnique s) :
    shaUnique (syncRepo env s repo).1 := by
  unfold syncRepo
  cases hf : env.fetcher.getCommitsSince repo.owner repo.name (sinceFor repo env.now) with
  | error m => exact hu
  | ok l =>
    dsimp only
    rcases hP : processCandidates env repo l s with ⟨s1, n, e⟩
    have h1 : shaUnique s1 := by
      have := processCandidates_unique env repo l s h
        (fun g _ d hd => hD repo.owner repo.name g.sha d hd) hu
      rwa [hP] at this
    cases e with
    | some m => exact h1
    | none => exact shaUnique_congr (updateRepositoryLastSync_commits s1 repo.id env.now).symm h1

theorem syncRepo_err_none (env : SyncEnv) (s : MemStorage) (repo : Repository)
    {l : List GitHubCommit}
    (hf : env.fetcher.getCommitsSince repo.owner repo.name (sinceFor repo env.now)
      = Except.ok l)
    (hd : ∀ g ∈ l, ∃ d, env.fetcher.getCommitDetails repo.owner repo.name g.sha
      = Except.ok d) :
    (syncRepo env s repo).2.2 = none := by
  unfold syncRepo
  rw [hf]
  dsimp only
  rcases hP : processCandidates env repo l s with ⟨s1, n, e⟩
  have he : e = none := by
    have := processCandidates_noabort env repo l s hd
    rwa [hP] at this
  subst he
  rfl

theorem syncRepo_cov (env : SyncEnv) (s : MemStorage) (repo : Repository)
    {l : List GitHubCommit}
    (hfr : commitIdsFresh s)
    (hf : env.fetcher.getCommitsSince repo.owner repo.name (sinceFor repo env.now)
      = Except.ok l)
    (hsha : ∀ g ∈ l, ∀ d, env.fetcher.getCommitDetails repo.owner repo.name g.sha
      = Except.ok d → d.sha = g.sha)
    (hok : (syncRepo env s repo).2.2 = none) :
    ∀ g ∈ l, shaStored (syncRepo env s repo).1 g.sha = true := by
  unfold syncRepo at hok ⊢
  rw [hf] at hok ⊢
  dsimp only at hok ⊢
  rcases hP : processCandidates env repo l s with ⟨s1, n, e⟩
  rw [hP] at hok
  cases e with
  | some m => simp at hok
  | none =>
    intro g hg
    have hcov := processCandidates_cov env repo l s hfr hsha (by rw [hP]) g hg
    rw [hP] at hcov
    dsimp only
    rw [shaStored_congr (updateRepositoryLastSync_commits s1 repo.id env.now) g.sha]
    exact hcov

theorem syncRepo_all_present (env : SyncEnv) (s : MemStorage) (repo : Repository)
    {l : List GitHubCommit}
    (hf : env.fetcher.getCommitsSince repo.owner repo.name (sinceFor repo env.now)
      = Except.ok l)
    (hall : ∀ g ∈ l, shaStored s g.sha = true) :
    syncRepo env s repo = (updateRepositoryLastSync s repo.id env.now, 0, none) := by
  unfold syncRepo
  rw [hf]
  dsimp only
  rw [processCandidates_all_present env repo l s hall]

theorem syncRepo_repositories_of_err (env : SyncEnv) (s : MemStorage) (repo : Repository)
    {m : String} (h : (syncRepo env s repo).2.2 = some m) :
    (syncRepo env s repo).1.repositories = s.repositories := by
  unfold syncRepo at h ⊢
  cases hf : env.fetcher.getCommitsSince repo.owner repo.name (sinceFor repo env.now) with
  | error m' => rfl
  | ok l =>
    rw [hf] at h
    dsimp only at h ⊢
    rcases hP : processCandidates env repo l s with ⟨s1, n, e⟩
    rw [hP] at h
    have hrep : s1.repositories = s.repositories := by
      have := processCandidates_repositories env repo l s
      rwa [hP] at this
    cases e with
    | some m'' => exact hrep
    | none => simp at h

theorem updateRepositoryLastSync_mapGet (s : MemStorage) (id : Nat) (t : Int)
    {r : Repository} (hr : mapGet s.repositories id = some r) :
    mapGet (updateRepositoryLastSync s id t).repositories id
      = some { r with lastSyncTime := some t } := by
  unfold updateRepositoryLastSync
  rw [hr]
  exact mapGet_mapSet_self _ _ _

theorem syncRepo_lastSync_of_ok (env : SyncEnv) (s : MemStorage) (repo : Repository)
    (hok : (syncRepo env s repo).2.2 = none) {r : Repository}
    (hr : mapGet s.repositories repo.id = some r) :
    mapGet (syncRepo env s repo).1.repositories repo.id
      = some { r with lastSyncTime := some env.now } := by
  unfold syncRepo at hok ⊢
  cases hf : env.fetcher.getCommitsSince repo.owner repo.name (sinceFor repo env.now) with
  | error m => rw [hf] at hok; simp at hok
  | ok l =>
    rw [hf] at hok
    dsimp only at hok ⊢
    rcases hP : processCandidates env repo l s with ⟨s1, n, e⟩
    rw [hP] at hok
    cases e with
    | some m => simp at hok
    | none =>
      have hrep : s1.repositories = s.repositories := by
        have := processCandidates_repositories env repo l s
        rwa [hP] at this
      have hr1 : mapGet s1.repositories repo.id = some r := by rw [hrep]; exact hr
      exact updateRepositoryLastSync_mapGet s1 repo.id env.now hr1

/-! ### Evolution of the repository table across a sync pass -/

theorem RepoStep.rfl (now : Int) (p : Nat × Repository) : RepoStep now p p :=
  ⟨Eq.refl _, Or.inl (Eq.refl _)⟩

theorem RepoStep.isActive_eq {now : Int} {p p' : Nat × Repository}
    (h : RepoStep now p p') : p'.2.isActive = p.2.isActive := by
  rcases h.2 with he | ⟨ha, he⟩
  · rw [he]
  · rw [he]

theorem RepoStep.lastSyncTime_cases {now : Int} {p p' : Nat × Repository}
    (h : RepoStep now p p') :
    p'.2.lastSyncTime = p.2.lastSyncTime ∨ p'.2.lastSyncTime = some now := by
  rcases h.2 with he | ⟨ha, he⟩
  · rw [he]; exact Or.inl (Eq.refl _)
  · rw [he]; exact Or.inr (Eq.refl _)

theorem RepoStep.step_trans {now : Int} {p p' p'' : Nat × Repository}
    (h1 : RepoStep now p p') (h2 : RepoStep now p' p'') : RepoStep now p p'' := by
  refine ⟨h2.1.trans h1.1, ?_⟩
  rcases h1.2 with he1 | ⟨ha1, he1⟩
  · rw [he1] at h2; exact h2.2
  · rcases h2.2 with he2 | ⟨ha2, he2⟩
    · rw [he2]; exact Or.inr ⟨ha1, he1⟩
    · refine Or.inr ⟨ha1, ?_⟩
      rw [he2, he1]

theorem forall₂_repoStep_refl (now : Int) (l : List (Nat × Repository)) :
    List.Forall₂ (RepoStep now) l l :=
  List.forall₂_same.mpr (fun p _ => RepoStep.rfl now p)

theorem forall₂_repoStep_trans {now : Int} {l1 l2 l3 : List (Nat × Repository)}
    (h1 : List.Forall₂ (RepoStep now) l1 l2) (h2 : List.Forall₂ (RepoStep now) l2 l3) :
    List.Forall₂ (RepoStep now) l1 l3 := by
  induction h1 generalizing l3 with
  | nil => cases h2; exact List.Forall₂.nil
  | cons hab h ih =>
    cases h2 with
    | cons hbc h2' => exact List.Forall₂.cons (hab.step_trans hbc) (ih h2')

theorem forall₂_mem_right {α β : Type} {R : α → β → Prop} {l : List α} {l' : List β}
    (h : List.Forall₂ R l l') {b : β} (hb : b ∈ l') : ∃ a ∈ l, R a b := by
  induction h with
  | nil => simp at hb
  | cons hab h ih =>
    rcases List.mem_cons.mp hb with rfl | hb'
    · exact ⟨_, List.mem_cons_self _ _, hab⟩
    · obtain ⟨a, ha, hr⟩ := ih hb'
      exact ⟨a, List.mem_cons_of_mem _ ha, hr⟩

theorem forall₂_repoStep_keys {now : Int} {l l' : List (Nat × Repository)}
    (h : List.Forall₂ (RepoStep now) l l') : l'.map Prod.fst = l.map Prod.fst := by
  induction h with
  | nil => rfl
  | cons hab h ih => simp [ih, hab.1]

theorem updateRepositoryLastSync_evolve (s : MemStorage) (id : Nat) (now : Int)
    (hnd : (s.repositories.map Prod.fst).Nodup)
    (hact : ∀ p ∈ s.repositories, p.1 = id → p.2.isActive = true) :
    List.Forall₂ (RepoStep now) s.repositories
      (updateRepositoryLastSync s id now).repositories := by
  unfold updateRepositoryLastSync
  cases hg : mapGet s.repositories id with
  | none => exact forall₂_repoStep_refl now s.repositories
  | some existing =>
    dsimp only
    obtain ⟨q, hfind, hq2⟩ :
        ∃ q, s.repositories.find? (fun p => p.1 == id) = some q ∧ q.2 = existing := by
      unfold mapGet at hg
      cases hF : s.repositories.find? (fun p => p.1 == id) with
      | none => rw [hF] at hg; cases hg
      | some q => rw [hF] at hg; exact ⟨q, Eq.refl _, by simpa using hg⟩
    have hany : s.repositories.any (fun p => p.1 == id) = true := by
      cases hA : s.repositories.any (fun p => p.1 == id) with
      | true => exact Eq.refl _
      | false => rw [(find?_none_iff_any_false _ _).mpr hA] at hfind; cases hfind
    unfold mapSet
    rw [if_pos hany]
    rw [List.forall₂_map_right_iff, List.forall₂_same]
    intro p hp
    by_cases hpk : p.1 = id
    · have hpq : p = q := by
        have h1 := find?_key_of_nodup hnd hp hpk
        rw [hfind] at h1
        exact (Option.some_inj.mp h1).symm
      have hex : existing = p.2 := by rw [← hq2, ← hpq]
      refine ⟨?_, Or.inr ⟨hact p hp hpk, ?_⟩⟩
      · simp [hpk]
      · simp only [hpk, beq_self_eq_true, if_pos]
        rw [hex]
    · simp only [beq_iff_eq, hpk, if_neg, not_false_iff]
      exact RepoStep.rfl now p

theorem syncRepo_evolve (env : SyncEnv) (s : MemStorage) (repo : Repository)
    (hnd : (s.repositories.map Prod.fst).Nodup)
    (hact : ∀ p ∈ s.repositories, p.1 = repo.id → p.2.isActive = true) :
    List.Forall₂ (RepoStep env.now) s.repositories (syncRepo env s repo).1.repositories := by
  unfold syncRepo
  cases hf : env.fetcher.getCommitsSince repo.owner repo.name (sinceFor repo env.now) with
  | error m => exact forall₂_repoStep_refl env.now s.repositories
  | ok l =>
    dsimp only
    rcases hP : processCandidates env repo l s with ⟨s1, n, e⟩
    have hrep : s1.repositories = s.repositories := by
      have := processCandidates_repositories env repo l s
      rwa [hP] at this
    cases e with
    | some m =>
      have h1 : List.Forall₂ (RepoStep env.now) s.repositories s1.repositories := by
        rw [hrep]
        exact forall₂_repoStep_refl env.now s.repositories
      exact h1
    | none =>
      have h1 := updateRepositoryLastSync_evolve s1 repo.id env.now
        (by rw [hrep]; exact hnd) (by rw [hrep]; exact hact)
      rw [hrep] at h1
      exact h1

/-! ### Lemmas about the per-repository loop and the whole handler -/

theorem syncLoop_nil (env : SyncEnv) (s : MemStorage) :
    syncLoop env [] s = (s, 0, []) := rfl

theorem syncLoop_cons (env : SyncEnv) (repo : Repository) (rest : List Repository)
    (s : MemStorage) :
    syncLoop env (repo :: rest) s
      = ((syncLoop env rest (syncRepo env s repo).1).1,
         (syncRepo env s repo).2.1 + (syncLoop env rest (syncRepo env s repo).1).2.1,
         (syncRepo env s repo).2.2.toList
           ++ (syncLoop env rest (syncRepo env s repo).1).2.2) := rfl

theorem toList_append_eq_nil {e : Option String} {l : List String} :
    e.toList ++ l = [] ↔ e = none ∧ l = [] := by
  cases e <;> simp

theorem syncLoop_fresh (env : SyncEnv) : ∀ (rs : List Repository) (s : MemStorage),
    commitIdsFresh s → commitIdsFresh (syncLoop env rs s).1 := by
  intro rs
  induction rs with
  | nil => intro s h; exact h
  | cons r rest ih =>
    intro s h
    rw [syncLoop_cons]
    exact ih _ (syncRepo_fresh env s r h)

theorem syncLoop_shaStored_mono (env : SyncEnv) (x : String) :
    ∀ (rs : List Repository) (s : MemStorage), commitIdsFresh s →
    shaStored s x = true → shaStored (syncLoop env rs s).1 x = true := by
  intro rs
  induction rs with
  | nil => intro s _ hx; exact hx
  | cons r rest ih =>
    intro s h hx
    rw [syncLoop_cons]
    exact ih _ (syncRepo_fresh env s r h) (syncRepo_shaStored_mono env s r x h hx)

theorem syncLoop_unique (env : SyncEnv) (hD : DetailSha env.fetcher) :
    ∀ (rs : List Repository) (s : MemStorage), commitIdsFresh s →
    shaUnique s → shaUnique (syncLoop env rs s).1 := by
  intro rs
  induction rs with
  | nil => intro s _ hu; exact hu
  | cons r rest ih =>
    intro s h hu
    rw [syncLoop_cons]
    exact ih _ (syncRepo_fresh env s r h) (syncRepo_unique env s r h hD hu)

theorem syncLoop_evolve (env : SyncEnv) : ∀ (rs : List Repository) (s : MemStorage),
    (s.repositories.map Prod.fst).Nodup →
    (∀ r ∈ rs, ∀ p ∈ s.repositories, p.1 = r.id → p.2.isActive = true) →
    List.Forall₂ (RepoStep env.now) s.repositories (syncLoop env rs s).1.repositories := by
  intro rs
  induction rs with
  | nil => intro s hnd hact; exact forall₂_repoStep_refl env.now s.repositories
  | cons r rest ih =>
    intro s hnd hact
    rw [syncLoop_cons]
    have h1 : List.Forall₂ (RepoStep env.now) s.repositories
        (syncRepo env s r).1.repositories :=
      syncRepo_evolve env s r hnd (hact r (List.mem_cons_self r rest))
    have hkeys := forall₂_repoStep_keys h1
    have hnd' : ((syncRepo env s r).1.repositories.map Prod.fst).Nodup := by
      rw [hkeys]; exact hnd
    have hact' : ∀ r' ∈ rest, ∀ p' ∈ (syncRepo env s r).1.repositories,
        p'.1 = r'.id → p'.2.isActive = true := by
      intro r' hr' p' hp' hk
      obtain ⟨p, hp, hstep⟩ := forall₂_mem_right h1 hp'
      rw [hstep.isActive_eq]
      exact hact r' (List.mem_cons_of_mem r hr') p hp (by rw [← hstep.1]; exact hk)
    exact forall₂_repoStep_trans h1 (ih _ hnd' hact')

theorem syncLoop_cov (env : SyncEnv) (hD : DetailSha env.fetcher) :
    ∀ (rs : List Repository) (s : MemStorage), commitIdsFresh s →
    (syncLoop env rs s).2.2 = [] →
    ∀ r ∈ rs, ∃ L,
      env.fetcher.getCommitsSince r.owner r.name (sinceFor r env.now) = Except.ok L ∧
      ∀ g ∈ L, shaStored (syncLoop env rs s).1 g.sha = true := by
  intro rs
  induction rs with
  | nil => intro s _ _ r hr; simp at hr
  | cons r0 rest ih =>
    intro s hfr herr r hr
    rw [syncLoop_cons] at herr ⊢
    dsimp only at herr ⊢
    rw [toList_append_eq_nil] at herr
    obtain ⟨he0, herest⟩ := herr
    obtain ⟨L0, hL0⟩ : ∃ L0,
        env.fetcher.getCommitsSince r0.owner r0.name (sinceFor r0 env.now)
          = Except.ok L0 := by
      cases hf : env.fetcher.getCommitsSince r0.owner r0.name (sinceFor r0 env.now) with
      | error m => rw [syncRepo_fetchError hf] at he0; simp at he0
      | ok L => exact ⟨L, Eq.refl _⟩
    have hfr1 := syncRepo_fresh env s r0 hfr
    rcases List.mem_cons.mp hr with rfl | hmem
    · refine ⟨L0, hL0, ?_⟩
      intro g hg
      have hcov := syncRepo_cov env s r hfr hL0
        (fun g' _ d hd => hD r.owner r.name g'.sha d hd) he0 g hg
      exact syncLoop_shaStored_mono env g.sha rest _ hfr1 hcov
    · exact ih _ hfr1 herest r hmem

theorem syncLoop_all_present (env : SyncEnv) : ∀ (rs : List Repository) (s : MemStorage),
    (∀ r ∈ rs, ∃ L,
      env.fetcher.getCommitsSince r.owner r.name (sinceFor r env.now) = Except.ok L ∧
      ∀ g ∈ L, shaStored s g.sha = true) →
    (syncLoop env rs s).2.1 = 0 ∧ (syncLoop env rs s).1.commits = s.commits ∧
      (syncLoop env rs s).2.2 = [] := by
  intro rs
  induction rs with
  | nil => intro s _; exact ⟨Eq.refl _, Eq.refl _, Eq.refl _⟩
  | cons r rest ih =>
    intro s h
    obtain ⟨L, hL, hall⟩ := h r (List.mem_cons_self r rest)
    have hstep := syncRepo_all_present env s r hL hall
    rw [syncLoop_cons, hstep]
    dsimp only
    have hcomm := updateRepositoryLastSync_commits s r.id env.now
    have h' : ∀ r' ∈ rest, ∃ L',
        env.fetcher.getCommitsSince r'.owner r'.name (sinceFor r' env.now) = Except.ok L' ∧
        ∀ g ∈ L', shaStored (updateRepositoryLastSync s r.id env.now) g.sha = true := by
      intro r' hr'
      obtain ⟨L', hL', hall'⟩ := h r' (List.mem_cons_of_mem r hr')
      exact ⟨L', hL', fun g hg => by
        rw [shaStored_congr hcomm g.sha]; exact hall' g hg⟩
    obtain ⟨h0, hc, he⟩ := ih _ h'
    refine ⟨by rw [h0], by rw [hc, hcomm], by simp [he]⟩

theorem sync_ok_shape (env : SyncEnv) (s : MemStorage) (cfg : BotConfigData)
    (htok : env.tokenPresent = true) (hsave : env.configSaveOk = true) :
    sync env s cfg
      = ((syncLoop env (getActiveRepositories s) s).1,
         { lastSyncTime := some env.now, saveCount := cfg.saveCount + 1 },
         Except.ok
           { newCommits := (syncLoop env (getActiveRepositories s) s).2.1,
             repositoriesProcessed := (getActiveRepositories s).length,
             errors := (syncLoop env (getActiveRepositories s) s).2.2 }) := by
  simp [sync, htok, hsave]

theorem sync_hard_token (env : SyncEnv) (s : MemStorage) (cfg : BotConfigData)
    (htok : env.tokenPresent = false) :
    sync env s cfg = (s, cfg, Except.error "GitHub token not found in environment variables") := by
  simp [sync, htok]

theorem sync_hard_save (env : SyncEnv) (s : MemStorage) (cfg : BotConfigData)
    (htok : env.tokenPresent = true) (hsave : env.configSaveOk = false) :
    sync env s cfg
      = ((syncLoop env (getActiveRepositories s) s).1, cfg,
         Except.error "Failed to save config") := by
  simp [sync, htok, hsave]

/-! ### Whole-handler helper lemmas -/

theorem sync_store_cases (env : SyncEnv) (s : MemStorage) (cfg : BotConfigData) :
    (sync env s cfg).1 = s ∨
    (sync env s cfg).1 = (syncLoop env (getActiveRepositories s) s).1 := by
  cases htok : env.tokenPresent with
  | false => rw [sync_hard_token env s cfg htok]; exact Or.inl (Eq.refl _)
  | true =>
    cases hsave : env.configSaveOk with
    | false => rw [sync_hard_save env s cfg htok hsave]; exact Or.inr (Eq.refl _)
    | true => rw [sync_ok_shape env s cfg htok hsave]; exact Or.inr (Eq.refl _)

theorem sync_fresh (env : SyncEnv) (s : MemStorage) (cfg : BotConfigData)
    (h : commitIdsFresh s) : commitIdsFresh (sync env s cfg).1 := by
  rcases sync_store_cases env s cfg with he | he <;> rw [he]
  · exact h
  · exact syncLoop_fresh env _ s h

theorem sync_unique (env : SyncEnv) (s : MemStorage) (cfg : BotConfigData)
    (hD : DetailSha env.fetcher) (h : commitIdsFresh s) (hu : shaUnique s) :
    shaUnique (sync env s cfg).1 := by
  rcases sync_store_cases env s cfg with he | he <;> rw [he]
  · exact hu
  · exact syncLoop_unique env hD _ s h hu

theorem sync_ok_inv (env : SyncEnv) (s : MemStorage) (cfg : BotConfigData)
    {res : SyncResult} (hok : (sync env s cfg).2.2 = Except.ok res) :
    env.tokenPresent = true ∧ env.configSaveOk = true ∧
    (sync env s cfg).1 = (syncLoop env (getActiveRepositories s) s).1 ∧
    res = { newCommits := (syncLoop env (getActiveRepositories s) s).2.1,
            repositoriesProcessed := (getActiveRepositories s).length,
            errors := (syncLoop env (getActiveRepositories s) s).2.2 } := by
  cases htok : env.tokenPresent with
  | false => rw [sync_hard_token env s cfg htok] at hok; cases hok
  | true =>
    cases hsave : env.configSaveOk with
    | false => rw [sync_hard_save env s cfg htok hsave] at hok; cases hok
    | true =>
      rw [sync_ok_shape env s cfg htok hsave] at hok
      rw [sync_ok_shape env s cfg htok hsave]
      injection hok with h'
      exact ⟨Eq.refl _, Eq.refl _, Eq.refl _, h'.symm⟩

theorem syncMany_cons (env : SyncEnv) (rest : List SyncEnv) (s : MemStorage)
    (cfg : BotConfigData) :
    syncMany (env :: rest) s cfg
      = syncMany rest (sync env s cfg).1 (sync env s cfg).2.1 := rfl

theorem syncMany_fresh : ∀ (envs : List SyncEnv) (s : MemStorage) (cfg : BotConfigData),
    commitIdsFresh s → commitIdsFresh (syncMany envs s cfg).1 := by
  intro envs
  induction envs with
  | nil => intro s cfg h; exact h
  | cons env rest ih =>
    intro s cfg h
    rw [syncMany_cons]
    exact ih _ _ (sync_fresh env s cfg h)

theorem syncMany_unique : ∀ (envs : List SyncEnv) (s : MemStorage) (cfg : BotConfigData),
    (∀ env ∈ envs, DetailSha env.fetcher) → commitIdsFresh s → shaUnique s →
    shaUnique (syncMany envs s cfg).1 := by
  intro envs
  induction envs with
  | nil => intro s cfg _ _ hu; exact hu
  | cons env rest ih =>
    intro s cfg hD h hu
    rw [syncMany_cons]
    exact ih _ _ (fun e he => hD e (List.mem_cons_of_mem env he))
      (sync_fresh env s cfg h)
      (sync_unique env s cfg (hD env (List.mem_cons_self env rest)) h hu)

/-! ### Helpers connecting well-formed repository tables to the loop -/

theorem entry_eq_of_key (s : MemStorage) (hWF : ReposWF s)
    {p q : Nat × Repository} (hp : p ∈ s.repositories) (hq : q ∈ s.repositories)
    (hk : p.1 = q.1) : p = q :=
  List.inj_on_of_nodup_map hWF.1 hp hq hk

theorem active_target_of_WF (s : MemStorage) (hWF : ReposWF s) :
    ∀ r ∈ getActiveRepositories s, ∀ p ∈ s.repositories, p.1 = r.id →
      p.2.isActive = true := by
  intro r hr p hp hk
  obtain ⟨hmem, hactr⟩ := List.mem_filter.mp hr
  obtain ⟨q, hq, hq2⟩ := List.mem_map.mp hmem
  have hqk : q.1 = r.id := by rw [hWF.2 q hq, hq2]
  have : p = q := entry_eq_of_key s hWF hp hq (by rw [hk, hqk])
  rw [this, hq2]
  exact hactr

theorem repoStep_owner_name {now : Int} {p p' : Nat × Repository}
    (h : RepoStep now p p') : p'.2.owner = p.2.owner ∧ p'.2.name = p.2.name := by
  rcases h.2 with he | ⟨ha, he⟩
  · rw [he]; exact ⟨Eq.refl _, Eq.refl _⟩
  · rw [he]; exact ⟨Eq.refl _, Eq.refl _⟩

theorem active_values_corr {now : Int} {s s' : MemStorage}
    (h : List.Forall₂ (RepoStep now) s.repositories s'.repositories) :
    ∀ r' ∈ getActiveRepositories s', ∃ r ∈ getActiveRepositories s,
      r'.owner = r.owner ∧ r'.name = r.name := by
  intro r' hr'
  obtain ⟨hmem', hact'⟩ := List.mem_filter.mp hr'
  obtain ⟨p', hp', hp2'⟩ := List.mem_map.mp hmem'
  obtain ⟨p, hp, hstep⟩ := forall₂_mem_right h hp'
  refine ⟨p.2, List.mem_filter.mpr ⟨List.mem_map.mpr ⟨p, hp, Eq.refl _⟩, ?_⟩, ?_⟩
  · rw [← hstep.isActive_eq, hp2']
    exact hact'
  · obtain ⟨ho, hn⟩ := repoStep_owner_name hstep
    rw [← hp2']
    exact ⟨ho, hn⟩

theorem forall₂_imp_mem {α β : Type} {R S : α → β → Prop} {l : List α} {l' : List β}
    (h : List.Forall₂ R l l') (himp : ∀ a ∈ l, ∀ b, R a b → S a b) :
    List.Forall₂ S l l' := by
  induction h with
  | nil => exact List.Forall₂.nil
  | cons hab h ih =>
    exact List.Forall₂.cons (himp _ (List.mem_cons_self _ _) _ hab)
      (ih (fun a ha b hr => himp a (List.mem_cons_of_mem _ ha) b hr))

theorem optTimeLe_refl (a : Option Int) : optTimeLe a a = true := by
  cases a with
  | none => rfl
  | some t => simp [optTimeLe]

theorem sync_evolve (env : SyncEnv) (s : MemStorage) (cfg : BotConfigData)
    (hWF : ReposWF s) :
    List.Forall₂ (RepoStep env.now) s.repositories (sync env s cfg).1.repositories := by
  rcases sync_store_cases env s cfg with he | he <;> rw [he]
  · exact forall₂_repoStep_refl env.now s.repositories
  · exact syncLoop_evolve env (getActiveRepositories s) s hWF.1 (active_target_of_WF s hWF)

/-! ### Helpers for the bulk `processed` flip -/

theorem MemStorage.ext' {a b : MemStorage} (h1 : a.repositories = b.repositories)
    (h2 : a.commits = b.commits) (h3 : a.currentRepoId = b.currentRepoId)
    (h4 : a.currentCommitId = b.currentCommitId) : a = b := by
  cases a; cases b
  simp_all

theorem mark_repositories (ids : List Nat) : ∀ s : MemStorage,
    (markCommitsAsProcessed s ids).repositories = s.repositories ∧
    (markCommitsAsProcessed s ids).currentRepoId = s.currentRepoId ∧
    (markCommitsAsProcessed s ids).currentCommitId = s.currentCommitId := by
  induction ids with
  | nil => intro s; exact ⟨Eq.refl _, Eq.refl _, Eq.refl _⟩
  | cons id ids ih =>
    intro s
    show (markCommitsAsProcessed _ ids).repositories = _ ∧ _
    cases hg : mapGet s.commits id with
    | none => simpa [markCommitsAsProcessed, List.foldl_cons, hg] using ih s
    | some c =>
      have := ih { s with commits := mapSet s.commits id { c with processed := true } }
      simpa [markCommitsAsProcessed, List.foldl_cons, hg] using this

theorem mark_step_char (s : MemStorage) (id : Nat)
    (hnd : (s.commits.map Prod.fst).Nodup) :
    (match mapGet s.commits id with
      | some commit =>
          { s with commits := mapSet s.commits id { commit with processed := true } }
      | none => s).commits
      = s.commits.map (fun p => if p.1 = id then (p.1, { p.2 with processed := true }) else p) := by
  cases hg : mapGet s.commits id with
  | none =>
    have hfind : s.commits.find? (fun p => p.1 == id) = none := by
      unfold mapGet at hg
      cases hF : s.commits.find? (fun p => p.1 == id) with
      | none => exact Eq.refl _
      | some q => rw [hF] at hg; cases hg
    have hanyf : s.commits.any (fun p => p.1 == id) = false :=
      (find?_none_iff_any_false _ _).mp hfind
    have hnotk : ∀ p ∈ s.commits, ¬ p.1 = id := by
      intro p hp hk
      have h2 : s.commits.any (fun p => p.1 == id) = true :=
        List.any_eq_true.mpr ⟨p, hp, by simpa using hk⟩
      rw [hanyf] at h2
      cases h2
    dsimp only
    symm
    calc s.commits.map
          (fun p => if p.1 = id then (p.1, { p.2 with processed := true }) else p)
        = s.commits.map (fun p => p) :=
          List.map_congr_left (fun p hp => if_neg (hnotk p hp))
      _ = s.commits := List.map_id' s.commits
  | some c =>
    obtain ⟨q, hfind, hq2⟩ :
        ∃ q, s.commits.find? (fun p => p.1 == id) = some q ∧ q.2 = c := by
      unfold mapGet at hg
      cases hF : s.commits.find? (fun p => p.1 == id) with
      | none => rw [hF] at hg; cases hg
      | some q => rw [hF] at hg; exact ⟨q, Eq.refl _, by simpa using hg⟩
    have hany : s.commits.any (fun p => p.1 == id) = true := by
      cases hA : s.commits.any (fun p => p.1 == id) with
      | true => exact Eq.refl _
      | false => rw [(find?_none_iff_any_false _ _).mpr hA] at hfind; cases hfind
    dsimp only
    unfold mapSet
    rw [if_pos hany]
    refine List.map_congr_left ?_
    intro p hp
    by_cases hpk : p.1 = id
    · have hpq : p = q := by
        have h1 := find?_key_of_nodup hnd hp hpk
        rw [hfind] at h1
        exact (Option.some_inj.mp h1).symm
      have hc2 : c = p.2 := by rw [← hq2, ← hpq]
      simp only [hpk, beq_self_eq_true, if_pos, if_true]
      rw [hc2]
    · simp only [beq_iff_eq, hpk, if_neg, not_false_iff]

/-! ### Helpers for the stored diff-count defaults -/

theorem natOrNull_some_getD (a : Nat) : (natOrNull (some a)).getD 0 = a := by
  by_cases ha : a = 0 <;> simp [natOrNull, ha]

theorem natOrNull_some_eq_none_iff (a : Nat) : natOrNull (some a) = none ↔ a = 0 := by
  by_cases ha : a = 0 <;> simp [natOrNull, ha]

theorem createCommit_additions (s : MemStorage) (ic : InsertCommit) :
    (createCommit s ic).1.additions = natOrNull ic.additions := rfl

theorem createCommit_deletions (s : MemStorage) (ic : InsertCommit) :
    (createCommit s ic).1.deletions = natOrNull ic.deletions := rfl

theorem createCommit_filesChanged (s : MemStorage) (ic : InsertCommit) :
    (createCommit s ic).1.filesChanged = natOrNull ic.filesChanged := rfl

theorem getCommitsBySha_isSome_iff (s : MemStorage) (x : String) :
    (getCommitsBySha s x).isSome = true ↔ ∃ c ∈ commitValues s, c.sha = x := by
  constructor
  · intro h
    cases hF : getCommitsBySha s x with
    | none => rw [hF] at h; cases h
    | some c =>
      have hF' : (commitValues s).find? (fun c0 => c0.sha == x) = some c := hF
      have hmem : c ∈ commitValues s := List.mem_of_find?_eq_some hF'
      have hsha := List.find?_some hF'
      exact ⟨c, hmem, by simpa using hsha⟩
  · rintro ⟨c, hc, hsha⟩
    cases hF : getCommitsBySha s x with
    | some c' => rfl
    | none =>
      have hstf : shaStored s x = false := (getCommitsBySha_none_iff s x).mp hF
      have h2 : (commitValues s).any (fun c0 => c0.sha == x) = true :=
        List.any_eq_true.mpr ⟨c, hc, by simpa using hsha⟩
      have hstf' : (commitValues s).any (fun c0 => c0.sha == x) = false := hstf
      rw [hstf'] at h2
      cases h2

/-! ### Claim theorems -/

/-- Claim C3 (amended): a repository's `lastSyncTime` is set to the current
time exactly when no step of its processing pass threw; when a step threw, the
repository table — in particular its `lastSyncTime` — is left unchanged. The
unamended claim ("set unconditionally, including on partial failure") is
refuted by `claim3_counterexample`. -/
theorem claim3_per_repo_checkpoint :
    (∀ (env : SyncEnv) (s : MemStorage) (repo r : Repository),
      (syncRepo env s repo).2.2 = none →
      mapGet s.repositories repo.id = some r →
      mapGet (syncRepo env s repo).1.repositories repo.id
        = some { r with lastSyncTime := some env.now }) ∧
    (∀ (env : SyncEnv) (s : MemStorage) (repo : Repository) (m : String),
      (syncRepo env s repo).2.2 = some m →
      (syncRepo env s repo).1.repositories = s.repositories) :=
  ⟨fun env s repo r hok hr => syncRepo_lastSync_of_ok env s repo hok hr,
   fun env s repo m h => syncRepo_repositories_of_err env s repo h⟩

/-- Claim C3, counterexample to the unamended claim: the single active
repository's detail fetch throws, the sync result records the error, yet the
stored `lastSyncTime` is still the old checkpoint `5`, not the current time
`1000`. -/
theorem claim3_counterexample :
    (sync env3 st3 cfg0).2.2
      = Except.ok { newCommits := 0, repositoriesProcessed := 1, errors := ["a/ra: boom"] } ∧
    mapGet (sync env3 st3 cfg0).1.repositories 1 = some (repoMk 1 "a" "ra" (some 5)) ∧
    env3.now = 1000 ∧ some (5 : Int) ≠ some (1000 : Int) := by
  refine ⟨by rfl, by decide, by decide, by decide⟩

/-- Claim C3, witness: both halves of the amended theorem applied at concrete
stores (a clean pass updates the checkpoint; a failing pass leaves the
repository table unchanged). -/
theorem claim3_witness :
    mapGet (syncRepo envW stW (repoMk 1 "o" "r" none)).1.repositories 1
      = some { repoMk 1 "o" "r" none with lastSyncTime := some envW.now } ∧
    (syncRepo env3 st3 (repoMk 1 "a" "ra" (some 5))).1.repositories = st3.repositories :=
  ⟨claim3_per_repo_checkpoint.1 envW stW (repoMk 1 "o" "r" none) (repoMk 1 "o" "r" none)
      (by decide) (by decide),
   claim3_per_repo_checkpoint.2 env3 st3 (repoMk 1 "a" "ra" (some 5)) "a/ra: boom" (by decide)⟩

/-- Claim C4: the "since" timestamp a repository's history fetch receives is
its stored `lastSyncTime` when present and otherwise exactly 7 days
(`7 * 24 * 60 * 60 * 1000` ms) before the current time; moreover a
repository's whole sync pass depends on the fetcher's list responses only at
that one timestamp. -/
theorem claim4_since_choice :
    (∀ (repo : Repository) (now t : Int), repo.lastSyncTime = some t →
      sinceFor repo now = t) ∧
    (∀ (repo : Repository) (now : Int), repo.lastSyncTime = none →
      sinceFor repo now = now - 7 * 24 * 60 * 60 * 1000) ∧
    (∀ (env : SyncEnv) (f' : Fetcher) (s : MemStorage) (repo : Repository),
      f'.getCommitsSince repo.owner repo.name (sinceFor repo env.now)
        = env.fetcher.getCommitsSince repo.owner repo.name (sinceFor repo env.now) →
      f'.getCommitDetails = env.fetcher.getCommitDetails →
      syncRepo { env with fetcher := f' } s repo = syncRepo env s repo) := by
  refine ⟨?_, ?_, ?_⟩
  · intro repo now t h
    simp [sinceFor, h]
  · intro repo now h
    simp [sinceFor, h, sevenDaysMs]
  · intro env f' s repo h1 h2
    unfold syncRepo
    dsimp only
    rw [h1]
    cases hf : env.fetcher.getCommitsSince repo.owner repo.name (sinceFor repo env.now) with
    | error m => rfl
    | ok l =>
      dsimp only
      rw [processCandidates_congr repo h2 l s]

/-- Claim C4, witness: the three parts applied at concrete inputs — a stored
checkpoint is passed through, a missing checkpoint yields `now - 7 days`, and
a fetcher that differs only on a foreign repository gives the same pass. -/
theorem claim4_witness :
    sinceFor (repoMk 1 "a" "ra" (some 5)) 100 = 5 ∧
    sinceFor (repoMk 1 "o" "r" none) 604800001 = 1 ∧
    syncRepo { envW with fetcher := fetchW2 } stW (repoMk 1 "o" "r" none)
      = syncRepo envW stW (repoMk 1 "o" "r" none) :=
  ⟨claim4_since_choice.1 (repoMk 1 "a" "ra" (some 5)) 100 5 (by decide),
   claim4_since_choice.2.1 (repoMk 1 "o" "r" none) 604800001 (by decide),
   claim4_since_choice.2.2 envW fetchW2 stW (repoMk 1 "o" "r" none) (by rfl) rfl⟩

/-- Claim C5 (amended): the sync call surfaces a hard error exactly when the
GitHub client cannot be constructed (missing token) or the final global
checkpoint write to the config file fails; loading the repository list cannot
fail in the in-memory store. When the call does not fail hard, every
repository was attempted and the per-repository failures are reported in the
aggregate error list. The unamended "only if" (hard error only from repo-list
loading or client construction) is refuted by `claim5_counterexample`. -/
theorem claim5_hard_error_iff (env : SyncEnv) (s : MemStorage) (cfg : BotConfigData) :
    isHardError (sync env s cfg).2.2 = (!env.tokenPresent || !env.configSaveOk) ∧
    (∀ res, (sync env s cfg).2.2 = Except.ok res →
      res.repositoriesProcessed = (getActiveRepositories s).length ∧
      res.errors = (syncLoop env (getActiveRepositories s) s).2.2) := by
  constructor
  · cases htok : env.tokenPresent with
    | false => rw [sync_hard_token env s cfg htok]; simp [isHardError, htok]
    | true =>
      cases hsave : env.configSaveOk with
      | false => rw [sync_hard_save env s cfg htok hsave]; simp [isHardError, htok, hsave]
      | true => rw [sync_ok_shape env s cfg htok hsave]; simp [isHardError, htok, hsave]
  · intro res hok
    obtain ⟨_, _, _, hres⟩ := sync_ok_inv env s cfg hok
    rw [hres]
    exact ⟨Eq.refl _, Eq.refl _⟩

/-- Claim C5, counterexample to the unamended claim: with the token present
(client constructible) and the in-memory repository list loading fine, the
sync call still fails hard because the config-file write for the global
checkpoint throws. -/
theorem claim5_counterexample :
    isHardError (sync envHard st0 cfg0).2.2 = true ∧ envHard.tokenPresent = true := by
  refine ⟨by decide, by decide⟩

/-- Claim C5, witness: the amended theorem applied to a clean run. -/
theorem claim5_witness :
    isHardError (sync envW stW cfg0).2.2 = (!envW.tokenPresent || !envW.configSaveOk) ∧
    ({ newCommits := 2, repositoriesProcessed := 1, errors := [] } : SyncResult).repositoriesProcessed
      = (getActiveRepositories stW).length :=
  ⟨(claim5_hard_error_iff envW stW cfg0).1,
   ((claim5_hard_error_iff envW stW cfg0).2
      { newCommits := 2, repositoriesProcessed := 1, errors := [] } (by rfl)).1⟩

/-- Claim C6 (amended): on the insert path, a commit's stored
additions/deletions/changed-file fields read back (with the store's null-as-0
convention) as exactly the fetched values defaulted to 0 — but the stored
field itself is `null` whenever that value is 0 or the external source
provided none, rather than the literal 0 the unamended claim states
(refuted by `claim6_counterexample`). -/
theorem claim6_diff_count_defaults (g : GitHubCommit) (rid : Nat) (s : MemStorage) :
    ((createCommit s (convertToInsertCommit g rid)).1).additions.getD 0
      = (g.stats.map Stats.additions).getD 0 ∧
    ((createCommit s (convertToInsertCommit g rid)).1).deletions.getD 0
      = (g.stats.map Stats.deletions).getD 0 ∧
    ((createCommit s (convertToInsertCommit g rid)).1).filesChanged.getD 0
      = (g.files.map List.length).getD 0 ∧
    (((createCommit s (convertToInsertCommit g rid)).1).additions = none
      ↔ (g.stats.map Stats.additions).getD 0 = 0) ∧
    (((createCommit s (convertToInsertCommit g rid)).1).deletions = none
      ↔ (g.stats.map Stats.deletions).getD 0 = 0) ∧
    (((createCommit s (convertToInsertCommit g rid)).1).filesChanged = none
      ↔ (g.files.map List.length).getD 0 = 0) :=
  ⟨natOrNull_some_getD _, natOrNull_some_getD _, natOrNull_some_getD _,
   natOrNull_some_eq_none_iff _, natOrNull_some_eq_none_iff _, natOrNull_some_eq_none_iff _⟩

/-- Claim C6, counterexample to the unamended claim: a fetched commit with no
stats and no file list is stored with `null` (not 0) addition, deletion and
changed-file fields. -/
theorem claim6_counterexample :
    ((createCommit st0 (convertToInsertCommit (gMk "ns") 1)).1).additions = none ∧
    ((createCommit st0 (convertToInsertCommit (gMk "ns") 1)).1).deletions = none ∧
    ((createCommit st0 (convertToInsertCommit (gMk "ns") 1)).1).filesChanged = none ∧
    (none : Option Nat) ≠ some 0 := by
  refine ⟨by decide, by decide, by decide, by decide⟩

/-- Claim C6, witness: a fetched commit with stats `(3, 4)` over two files is
stored so that its addition count reads back as the fetched value 3. -/
theorem claim6_witness :
    ((createCommit st0 (convertToInsertCommit
        { gMk "zz" with stats := some ⟨3, 4, 7⟩, files := some ["f1", "f2"] } 1)).1).additions.getD 0
      = (({ gMk "zz" with stats := some ⟨3, 4, 7⟩, files := some ["f1", "f2"] }
          : GitHubCommit).stats.map Stats.additions).getD 0 :=
  (claim6_diff_count_defaults _ 1 st0).1

/-- Claim C7: a sync invocation that does not fail hard advances the global
checkpoint to the current time with exactly one successful config write, after
having attempted every active repository; a hard-failing invocation leaves the
persisted config unchanged. -/
theorem claim7_global_checkpoint (env : SyncEnv) (s : MemStorage) (cfg : BotConfigData) :
    (∀ res, (sync env s cfg).2.2 = Except.ok res →
      (sync env s cfg).2.1.lastSyncTime = some env.now ∧
      (sync env s cfg).2.1.saveCount = cfg.saveCount + 1 ∧
      res.repositoriesProcessed = (getActiveRepositories s).length) ∧
    (∀ e, (sync env s cfg).2.2 = Except.error e → (sync env s cfg).2.1 = cfg) := by
  constructor
  · intro res hok
    obtain ⟨htok, hsave, _, hres⟩ := sync_ok_inv env s cfg hok
    rw [sync_ok_shape env s cfg htok hsave, hres]
    exact ⟨Eq.refl _, Eq.refl _, Eq.refl _⟩
  · intro e herr
    cases htok : env.tokenPresent with
    | false => rw [sync_hard_token env s cfg htok]
    | true =>
      cases hsave : env.configSaveOk with
      | false => rw [sync_hard_save env s cfg htok hsave]
      | true => rw [sync_ok_shape env s cfg htok hsave] at herr; cases herr

/-- Claim C7, witness: a clean run's config has checkpoint `now` and one more
successful write; a hard-failing run's config is unchanged. -/
theorem claim7_witness :
    ((sync envW stW cfg0).2.1.lastSyncTime = some envW.now ∧
      (sync envW stW cfg0).2.1.saveCount = cfg0.saveCount + 1 ∧
      ({ newCommits := 2, repositoriesProcessed := 1, errors := [] } : SyncResult).repositoriesProcessed
        = (getActiveRepositories stW).length) ∧
    (sync envHard st0 cfg0).2.1 = cfg0 :=
  ⟨(claim7_global_checkpoint envW stW cfg0).1
      { newCommits := 2, repositoriesProcessed := 1, errors := [] } (by rfl),
   (claim7_global_checkpoint envHard st0 cfg0).2 "Failed to save config" (by rfl)⟩

theorem markCommitsAsProcessed_cons (s : MemStorage) (id : Nat) (ids : List Nat) :
    markCommitsAsProcessed s (id :: ids)
      = markCommitsAsProcessed
          (match mapGet s.commits id with
            | some commit =>
                { s with commits := mapSet s.commits id { commit with processed := true } }
            | none => s) ids := rfl

theorem mark_commits_char : ∀ (ids : List Nat) (s : MemStorage),
    (s.commits.map Prod.fst).Nodup →
    (markCommitsAsProcessed s ids).commits
      = s.commits.map
          (fun p => if p.1 ∈ ids then (p.1, { p.2 with processed := true }) else p) := by
  intro ids
  induction ids with
  | nil =>
    intro s _
    symm
    calc s.commits.map
          (fun p => if p.1 ∈ ([] : List Nat) then (p.1, { p.2 with processed := true }) else p)
        = s.commits.map (fun p => p) := List.map_congr_left (fun p _ => by simp)
      _ = s.commits := List.map_id' s.commits
  | cons id ids ih =>
    intro s hnd
    rw [markCommitsAsProcessed_cons]
    have hstep := mark_step_char s id hnd
    have hkeys : (match mapGet s.commits id with
        | some commit =>
            { s with commits := mapSet s.commits id { commit with processed := true } }
        | none => s).commits.map Prod.fst = s.commits.map Prod.fst := by
      rw [hstep, List.map_map]
      exact List.map_congr_left (fun p _ => by by_cases h1 : p.1 = id <;> simp [h1])
    have hnd' : ((match mapGet s.commits id with
        | some commit =>
            { s with commits := mapSet s.commits id { commit with processed := true } }
        | none => s).commits.map Prod.fst).Nodup := by
      rw [hkeys]; exact hnd
    rw [ih _ hnd', hstep, List.map_map]
    refine List.map_congr_left ?_
    intro p _
    by_cases h1 : p.1 = id <;> by_cases h2 : p.1 ∈ ids <;>
      simp [Function.comp, h1, h2]

/-- Claim C8: `markCommitsAsProcessed` flips `processed` to true on exactly
the stored commits whose identifiers are listed (keeping their other fields
and positions), silently ignores listed identifiers with no stored commit,
leaves the rest of the store untouched, and is idempotent. -/
theorem claim8_mark_processed (s : MemStorage) (ids : List Nat)
    (hnd : (s.commits.map Prod.fst).Nodup) :
    (markCommitsAsProcessed s ids).commits
      = s.commits.map
          (fun p => if p.1 ∈ ids then (p.1, { p.2 with processed := true }) else p) ∧
    (markCommitsAsProcessed s ids).repositories = s.repositories ∧
    (markCommitsAsProcessed s ids).currentRepoId = s.currentRepoId ∧
    (markCommitsAsProcessed s ids).currentCommitId = s.currentCommitId ∧
    markCommitsAsProcessed (markCommitsAsProcessed s ids) ids
      = markCommitsAsProcessed s ids := by
  have hchar := mark_commits_char ids s hnd
  have hframe := mark_repositories ids s
  refine ⟨hchar, hframe.1, hframe.2.1, hframe.2.2, ?_⟩
  have hkeys2 : ((markCommitsAsProcessed s ids).commits.map Prod.fst).Nodup := by
    rw [hchar, List.map_map]
    have hsame : s.commits.map
        (Prod.fst ∘ fun p => if p.1 ∈ ids then (p.1, { p.2 with processed := true }) else p)
        = s.commits.map Prod.fst :=
      List.map_congr_left (fun p _ => by by_cases h1 : p.1 ∈ ids <;> simp [h1])
    rw [hsame]; exact hnd
  have hchar2 := mark_commits_char ids (markCommitsAsProcessed s ids) hkeys2
  have hframe2 := mark_repositories ids (markCommitsAsProcessed s ids)
  refine MemStorage.ext' (by rw [hframe2.1]) ?_ (by rw [hframe2.2.1]) (by rw [hframe2.2.2])
  rw [hchar2, hchar, List.map_map]
  exact List.map_congr_left (fun p _ => by by_cases h1 : p.1 ∈ ids <;> simp [h1])

/-- Claim C8, witness: flipping `[1, 2, 3]` on a store holding commits 1, 2
and 4 flips exactly commits 1 and 2 (3 is silently ignored, 4 untouched), and
doing it again changes nothing. -/
theorem claim8_witness :
    (markCommitsAsProcessed st8 [1, 2, 3]).commits
      = st8.commits.map
          (fun p => if p.1 ∈ [1, 2, 3] then (p.1, { p.2 with processed := true }) else p) ∧
    markCommitsAsProcessed (markCommitsAsProcessed st8 [1, 2, 3]) [1, 2, 3]
      = markCommitsAsProcessed st8 [1, 2, 3] :=
  ⟨(claim8_mark_processed st8 [1, 2, 3] (by decide)).1,
   (claim8_mark_processed st8 [1, 2, 3] (by decide)).2.2.2.2⟩

theorem detailSha_fetchW : DetailSha fetchW := by
  intro o n sha g h
  have h' : Except.ok (gMk sha) = Except.ok g := h
  injection h' with h2
  rw [← h2]
  rfl

theorem fetchConst_fetchW : FetchConst fetchW := fun _ _ _ _ => rfl

theorem detailSha_fetchT : DetailSha fetchT := by
  intro o n sha g h
  have h' : Except.ok (gMk sha) = Except.ok g := h
  injection h' with h2
  rw [← h2]
  rfl

theorem syncRepo_err_keyed (env : SyncEnv) (s : MemStorage) (repo : Repository)
    {m : String} (h : (syncRepo env s repo).2.2 = some m) :
    ∃ e, m = repoErrorMsg repo e := by
  unfold syncRepo at h
  cases hf : env.fetcher.getCommitsSince repo.owner repo.name (sinceFor repo env.now) with
  | error m' =>
    rw [hf] at h
    dsimp only at h
    exact ⟨m', (Option.some_inj.mp h).symm⟩
  | ok l =>
    rw [hf] at h
    dsimp only at h
    rcases hP : processCandidates env repo l s with ⟨s1, n, e⟩
    rw [hP] at h
    cases e with
    | some e' =>
      dsimp only at h
      exact ⟨e', (Option.some_inj.mp h).symm⟩
    | none => simp at h

theorem syncLoop_append (env : SyncEnv) : ∀ (rs1 rs2 : List Repository) (s : MemStorage),
    syncLoop env (rs1 ++ rs2) s
      = ((syncLoop env rs2 (syncLoop env rs1 s).1).1,
         (syncLoop env rs1 s).2.1 + (syncLoop env rs2 (syncLoop env rs1 s).1).2.1,
         (syncLoop env rs1 s).2.2 ++ (syncLoop env rs2 (syncLoop env rs1 s).1).2.2) := by
  intro rs1
  induction rs1 with
  | nil =>
    intro rs2 s
    simp [syncLoop_nil]
  | cons r rs1 ih =>
    intro rs2 s
    rw [List.cons_append, syncLoop_cons, syncLoop_cons, ih]
    simp [Nat.add_assoc, List.append_assoc]

/-- Claim C2: whenever one repository's pass throws — at any step: history
fetch, detail fetch, or store write (the in-memory store's writes cannot
throw) — the loop records exactly one error message keyed by that repository
and carries on with the remaining repositories from the state built so far,
partial inserts of the failing pass included; in particular, with three active
repositories of which exactly the second one's history fetch throws, the sync
call still succeeds, stores the commits fetched for the first and third
repositories, and its error list is exactly the one message keyed by the
second repository. -/
theorem claim2_partial_failure_isolation :
    (∀ (env : SyncEnv) (s : MemStorage) (rs1 : List Repository) (repo : Repository)
      (rs2 : List Repository) (m : String),
      (syncRepo env (syncLoop env rs1 s).1 repo).2.2 = some m →
      (∃ e, m = repoErrorMsg repo e) ∧
      syncLoop env (rs1 ++ repo :: rs2) s
        = ((syncLoop env rs2 (syncRepo env (syncLoop env rs1 s).1 repo).1).1,
           (syncLoop env rs1 s).2.1
             + ((syncRepo env (syncLoop env rs1 s).1 repo).2.1
               + (syncLoop env rs2 (syncRepo env (syncLoop env rs1 s).1 repo).1).2.1),
           (syncLoop env rs1 s).2.2
             ++ m :: (syncLoop env rs2 (syncRepo env (syncLoop env rs1 s).1 repo).1).2.2)) ∧
    (∀ (env : SyncEnv) (s : MemStorage) (cfg : BotConfigData) (r1 r2 r3 : Repository)
      (l1 l3 : List GitHubCommit) (m : String),
      getActiveRepositories s = [r1, r2, r3] →
      commitIdsFresh s →
      env.tokenPresent = true → env.configSaveOk = true →
      env.fetcher.getCommitsSince r1.owner r1.name (sinceFor r1 env.now) = Except.ok l1 →
      env.fetcher.getCommitsSince r2.owner r2.name (sinceFor r2 env.now) = Except.error m →
      env.fetcher.getCommitsSince r3.owner r3.name (sinceFor r3 env.now) = Except.ok l3 →
      (∀ g ∈ l1, ∃ d, env.fetcher.getCommitDetails r1.owner r1.name g.sha
        = Except.ok d ∧ d.sha = g.sha) →
      (∀ g ∈ l3, ∃ d, env.fetcher.getCommitDetails r3.owner r3.name g.sha
        = Except.ok d ∧ d.sha = g.sha) →
      ∃ res, (sync env s cfg).2.2 = Except.ok res ∧
        res.errors = [repoErrorMsg r2 m] ∧
        (∀ g ∈ l1, shaStored (sync env s cfg).1 g.sha = true) ∧
        (∀ g ∈ l3, shaStored (sync env s cfg).1 g.sha = true)) := by
  constructor
  · intro env s rs1 repo rs2 m hm
    refine ⟨syncRepo_err_keyed env _ repo hm, ?_⟩
    rw [syncLoop_append, syncLoop_cons, hm]
    simp
  intro env s cfg r1 r2 r3 l1 l3 m hact hfr htok hsave hf1 hf2 hf3 hd1 hd3
  rw [sync_ok_shape env s cfg htok hsave, hact]
  have he1 : (syncRepo env s r1).2.2 = none :=
    syncRepo_err_none env s r1 hf1 (fun g hg => (hd1 g hg).elim (fun d hd => ⟨d, hd.1⟩))
  have hsha1 : ∀ g ∈ l1, ∀ d, env.fetcher.getCommitDetails r1.owner r1.name g.sha
      = Except.ok d → d.sha = g.sha := by
    intro g hg d hd
    obtain ⟨d0, hd0, hs0⟩ := hd1 g hg
    rw [hd0] at hd
    injection hd with h'
    rw [← h']
    exact hs0
  have hcov1 : ∀ g ∈ l1, shaStored (syncRepo env s r1).1 g.sha = true :=
    syncRepo_cov env s r1 hfr hf1 hsha1 he1
  have hfr1 : commitIdsFresh (syncRepo env s r1).1 := syncRepo_fresh env s r1 hfr
  have hstep2 : syncRepo env (syncRepo env s r1).1 r2
      = ((syncRepo env s r1).1, 0, some (repoErrorMsg r2 m)) := syncRepo_fetchError hf2
  have he3 : (syncRepo env (syncRepo env s r1).1 r3).2.2 = none :=
    syncRepo_err_none env _ r3 hf3 (fun g hg => (hd3 g hg).elim (fun d hd => ⟨d, hd.1⟩))
  have hsha3 : ∀ g ∈ l3, ∀ d, env.fetcher.getCommitDetails r3.owner r3.name g.sha
      = Except.ok d → d.sha = g.sha := by
    intro g hg d hd
    obtain ⟨d0, hd0, hs0⟩ := hd3 g hg
    rw [hd0] at hd
    injection hd with h'
    rw [← h']
    exact hs0
  have hcov3 : ∀ g ∈ l3, shaStored (syncRepo env (syncRepo env s r1).1 r3).1 g.sha = true :=
    syncRepo_cov env _ r3 hfr1 hf3 hsha3 he3
  have hLstore : (syncLoop env [r1, r2, r3] s).1
      = (syncRepo env (syncRepo env s r1).1 r3).1 := by
    simp only [syncLoop_cons, syncLoop_nil, hstep2]
  have hLerr : (syncLoop env [r1, r2, r3] s).2.2 = [repoErrorMsg r2 m] := by
    simp only [syncLoop_cons, syncLoop_nil, hstep2, he1, he3]
    simp
  refine ⟨_, Eq.refl _, ?_, ?_, ?_⟩
  · exact hLerr
  · intro g hg
    rw [hLstore]
    exact syncRepo_shaStored_mono env _ r3 g.sha hfr1 (hcov1 g hg)
  · intro g hg
    rw [hLstore]
    exact hcov3 g hg

/-- Claim C2, witness: first, a concrete detail-fetch throw — repository `a`
inserts commit `y`, then its detail fetch for `x` throws; exactly the one
message keyed `a/ra` is recorded and the loop continues with repository `b`
from the mutated store. Second, the three-repository scenario run concretely —
the second repository's history fetch throws, commits `c1` and `c3` of the
first and third are stored and the error list names exactly the second
repository. -/
theorem claim2_witness :
    ((∃ e, "a/ra: boom" = repoErrorMsg (repoMk 1 "a" "ra" none) e) ∧
      syncLoop envD ([] ++ repoMk 1 "a" "ra" none :: [repoMk 2 "b" "rb" none]) stD
        = ((syncLoop envD [repoMk 2 "b" "rb" none]
              (syncRepo envD (syncLoop envD [] stD).1 (repoMk 1 "a" "ra" none)).1).1,
           (syncLoop envD [] stD).2.1
             + ((syncRepo envD (syncLoop envD [] stD).1 (repoMk 1 "a" "ra" none)).2.1
               + (syncLoop envD [repoMk 2 "b" "rb" none]
                   (syncRepo envD (syncLoop envD [] stD).1 (repoMk 1 "a" "ra" none)).1).2.1),
           (syncLoop envD [] stD).2.2
             ++ "a/ra: boom"
               :: (syncLoop envD [repoMk 2 "b" "rb" none]
                    (syncRepo envD (syncLoop envD [] stD).1 (repoMk 1 "a" "ra" none)).1).2.2)) ∧
    (∃ res, (sync env2 st2 cfg0).2.2 = Except.ok res ∧
      res.errors = [repoErrorMsg (repoMk 2 "a2" "r2" none) "down"] ∧
      (∀ g ∈ [gMk "c1"], shaStored (sync env2 st2 cfg0).1 g.sha = true) ∧
      (∀ g ∈ [gMk "c3"], shaStored (sync env2 st2 cfg0).1 g.sha = true)) :=
  ⟨claim2_partial_failure_isolation.1 envD stD [] (repoMk 1 "a" "ra" none)
      [repoMk 2 "b" "rb" none] "a/ra: boom" (by decide),
   claim2_partial_failure_isolation.2 env2 st2 cfg0
    (repoMk 1 "a1" "r1" none) (repoMk 2 "a2" "r2" none) (repoMk 3 "a3" "r3" none)
    [gMk "c1"] [gMk "c3"] "down"
    (by decide) (by unfold commitIdsFresh; decide) (by decide) (by decide)
    (by rfl) (by rfl) (by rfl)
    (fun g _ => ⟨gMk g.sha, rfl, rfl⟩)
    (fun g _ => ⟨gMk g.sha, rfl, rfl⟩)⟩

/-- Claim C9: across a sync invocation whose current time is at or after every
stored checkpoint, each repository row keeps its key; a row that was active
has its `lastSyncTime` not decreased, and a row that was inactive is left
completely unchanged. -/
theorem claim9_checkpoint_monotone (env : SyncEnv) (s : MemStorage) (cfg : BotConfigData)
    (hWF : ReposWF s)
    (hbound : ∀ p ∈ s.repositories, optTimeLe p.2.lastSyncTime (some env.now) = true) :
    List.Forall₂ (fun p p' =>
      p'.1 = p.1 ∧
      (p.2.isActive = true → optTimeLe p.2.lastSyncTime p'.2.lastSyncTime = true) ∧
      (p.2.isActive = false → p' = p))
      s.repositories (sync env s cfg).1.repositories := by
  have hev := sync_evolve env s cfg hWF
  refine forall₂_imp_mem hev ?_
  intro p hp p' hstep
  refine ⟨hstep.1, ?_, ?_⟩
  · intro _
    rcases hstep.2 with he | ⟨ha, he⟩
    · rw [he]
      exact optTimeLe_refl _
    · rw [he]
      exact hbound p hp
  · intro hinact
    rcases hstep.2 with he | ⟨ha, he⟩
    · exact he
    · rw [ha] at hinact
      cases hinact

/-- Claim C9, witness: the monotonicity relation holds concretely for a
single-repository store with no prior checkpoint. -/
theorem claim9_witness :
    List.Forall₂ (fun p p' =>
      p'.1 = p.1 ∧
      (p.2.isActive = true → optTimeLe p.2.lastSyncTime p'.2.lastSyncTime = true) ∧
      (p.2.isActive = false → p' = p))
      stW.repositories (sync envW stW cfg0).1.repositories :=
  claim9_checkpoint_monotone envW stW cfg0 (by unfold ReposWF; decide) (by decide)

/-- Claim C10: the dedup gate `getCommitsBySha` answers over the commits of
every repository (no repository filter); a sync invocation preserves global
hash-uniqueness of the store; and in the concrete two-repository run where
both repositories list the same upstream commit `s1`, it is stored exactly
once, under the repository that synced it first. -/
theorem claim10_global_dedup :
    (∀ (s : MemStorage) (x : String),
      (getCommitsBySha s x).isSome = true ↔ ∃ c ∈ commitValues s, c.sha = x) ∧
    (∀ (env : SyncEnv) (s : MemStorage) (cfg : BotConfigData),
      DetailSha env.fetcher → commitIdsFresh s → shaUnique s →
      shaUnique (sync env s cfg).1) ∧
    (commitShas (sync envT stT cfg0).1).count "s1" = 1 ∧
    (∃ c ∈ commitValues (sync envT stT cfg0).1, c.sha = "s1" ∧ c.repositoryId = some 1) := by
  refine ⟨getCommitsBySha_isSome_iff,
    fun env s cfg hD hfr hu => sync_unique env s cfg hD hfr hu, ?_, ?_⟩
  · decide
  · decide

/-- Claim C10, witness: the uniqueness-preservation part applied to a clean
concrete run, and the global-gate characterization at its result store. -/
theorem claim10_witness :
    shaUnique (sync envW stW cfg0).1 ∧
    ((getCommitsBySha (sync envW stW cfg0).1 "w1").isSome = true
      ↔ ∃ c ∈ commitValues (sync envW stW cfg0).1, c.sha = "w1") :=
  ⟨claim10_global_dedup.2.1 envW stW cfg0 detailSha_fetchW
      (by unfold commitIdsFresh; decide) (by unfold shaUnique; decide),
   claim10_global_dedup.1 (sync envW stW cfg0).1 "w1"⟩

theorem count_le_one_of_nodup {l : List String} (h : l.Nodup) (x : String) :
    l.count x ≤ 1 := by
  induction l with
  | nil => simp
  | cons a l ih =>
    rcases List.nodup_cons.mp h with ⟨hna, hnd⟩
    by_cases hx : a = x
    · subst hx
      have hz : l.count a = 0 := List.count_eq_zero.mpr hna
      simp [List.count_cons, hz]
    · have hbe : (a == x) = false := by simpa using hx
      simp [List.count_cons, hbe]
      exact ih hnd

/-- Claim C1 (amended): a candidate whose content hash is already stored is
skipped with no new row; after any number of sync invocations (whose detail
fetches honour the hash contract) every content hash occurs in the store at
most once; and a second sync invocation in which the fetcher returns the same
commits as the first inserts zero new commits, provided the first invocation
completed with an empty error list. The unamended claim (second run inserts
zero even after a partially failed first run) is refuted by
`claim1_counterexample`. -/
theorem claim1_dedup_idempotence :
    (∀ (env : SyncEnv) (repo : Repository) (s : MemStorage) (g : GitHubCommit)
      (rest : List GitHubCommit) (c : Commit),
      getCommitsBySha s g.sha = some c →
      processCandidates env repo (g :: rest) s = processCandidates env repo rest s) ∧
    (∀ (envs : List SyncEnv) (s : MemStorage) (cfg : BotConfigData),
      (∀ env ∈ envs, DetailSha env.fetcher) → commitIdsFresh s → shaUnique s →
      ∀ x, (commitShas (syncMany envs s cfg).1).count x ≤ 1) ∧
    (∀ (env : SyncEnv) (s : MemStorage) (cfg : BotConfigData) (res1 : SyncResult),
      DetailSha env.fetcher → FetchConst env.fetcher → ReposWF s → commitIdsFresh s →
      (sync env s cfg).2.2 = Except.ok res1 → res1.errors = [] →
      ∃ res2, (sync env (sync env s cfg).1 (sync env s cfg).2.1).2.2 = Except.ok res2 ∧
        res2.newCommits = 0) := by
  refine ⟨?_, ?_, ?_⟩
  · intro env repo s g rest c hc
    simp only [processCandidates, hc]
  · intro envs s cfg hD hfr hu x
    exact count_le_one_of_nodup (syncMany_unique envs s cfg hD hfr hu) x
  · intro env s cfg res1 hD hFC hWF hfr hok1 herr1
    obtain ⟨htok, hsave, hs1, hres1⟩ := sync_ok_inv env s cfg hok1
    have herrL : (syncLoop env (getActiveRepositories s) s).2.2 = [] := by
      rw [hres1] at herr1
      exact herr1
    have hcov := syncLoop_cov env hD (getActiveRepositories s) s hfr herrL
    have hev : List.Forall₂ (RepoStep env.now) s.repositories
        (sync env s cfg).1.repositories := sync_evolve env s cfg hWF
    have hcorr := active_values_corr hev
    have hzero : ∀ r' ∈ getActiveRepositories (sync env s cfg).1, ∃ L,
        env.fetcher.getCommitsSince r'.owner r'.name (sinceFor r' env.now) = Except.ok L ∧
        ∀ g ∈ L, shaStored (sync env s cfg).1 g.sha = true := by
      intro r' hr'
      obtain ⟨r, hr, ho, hn⟩ := hcorr r' hr'
      obtain ⟨L, hL, hcovL⟩ := hcov r hr
      refine ⟨L, ?_, ?_⟩
      · rw [ho, hn, hFC r.owner r.name (sinceFor r' env.now) (sinceFor r env.now)]
        exact hL
      · intro g hg
        rw [hs1]
        exact hcovL g hg
    have hz := syncLoop_all_present env (getActiveRepositories (sync env s cfg).1)
      (sync env s cfg).1 hzero
    rw [sync_ok_shape env (sync env s cfg).1 (sync env s cfg).2.1 htok hsave]
    exact ⟨_, Eq.refl _, hz.1⟩

/-- Claim C1, counterexample to the unamended claim: the fetcher's lists are
independent of the "since" argument (the second run sees the very same
commits), yet after a first run in which repository `a`'s detail fetch for
commit `x` throws (while repository `b` stores the same hash `x`), the second
run gets past `x` by the dedup gate and inserts the still-missing commit `y` —
one new commit, not zero. -/
theorem claim1_counterexample :
    (∀ o n t t', envC.fetcher.getCommitsSince o n t = envC.fetcher.getCommitsSince o n t') ∧
    (sync envC stC cfg0).2.2
      = Except.ok { newCommits := 1, repositoriesProcessed := 2, errors := ["a/ra: boom"] } ∧
    (sync envC (sync envC stC cfg0).1 (sync envC stC cfg0).2.1).2.2
      = Except.ok { newCommits := 1, repositoriesProcessed := 2, errors := [] } ∧
    (1 : Nat) ≠ 0 :=
  ⟨fun _ _ _ _ => rfl, by rfl, by rfl, by decide⟩

/-- Claim C1, witness: the three parts applied concretely — a stored hash
makes the candidate loop skip; one clean sync from the empty store keeps every
hash count at most 1; and re-running the clean sync inserts zero commits. -/
theorem claim1_witness :
    processCandidates envW (repoMk 1 "o" "r" none) [gMk "s1"] st8
      = processCandidates envW (repoMk 1 "o" "r" none) [] st8 ∧
    (commitShas (syncMany [envW] st0 cfg0).1).count "w1" ≤ 1 ∧
    (∃ res2, (sync envW (sync envW stW cfg0).1 (sync envW stW cfg0).2.1).2.2
        = Except.ok res2 ∧ res2.newCommits = 0) :=
  ⟨claim1_dedup_idempotence.1 envW (repoMk 1 "o" "r" none) st8 (gMk "s1") [] (cMk 1 "s1")
      (by rfl),
   claim1_dedup_idempotence.2.1 [envW] st0 cfg0
      (fun e he => by rw [List.mem_singleton.mp he]; exact detailSha_fetchW)
      (by unfold commitIdsFresh; decide) (by unfold shaUnique; decide) "w1",
   claim1_dedup_idempotence.2.2 envW stW cfg0
      { newCommits := 2, repositoriesProcessed := 1, errors := [] }
      detailSha_fetchW fetchConst_fetchW (by unfold ReposWF; decide)
      (by unfold commitIdsFresh; decide) (by rfl) (by rfl)⟩

end CommitBot
